import Mathlib

/-!
Higgs inflation in the Palatini formulation: potential, gradient and Hessian

A shallow embedding of the two CosmoLattice model files

* `higgs_palatini.h` (one scalar, one potential term), and
* `higgs_palatini_gauge_scalars.h` (four scalars, four potential terms).

Each overload `f(Tag<k>)` of the source is the definition `f_Tag<k>` below, `pow(x, n)` and
`pow<n>(x)` are powers with a natural exponent, and the lazily evaluated field expression
`fldS(k_c)` is the value `fldS k` of the `k`-th scalar at the lattice site under consideration.

The formulas are embedded twice.  In the namespaces `higgs_palatini` and
`higgs_palatini_gauge_scalars` they are exact real-valued expressions: these carry the calculus
of the potential, its gradient and its Hessian, on the domain `xi > 0`, `Lambda > 0`.  In the
sub-namespaces `binary64` they are evaluated in IEEE 754 double precision, with rounding,
overflow to infinity and NaN: these carry what the program stores and returns, for any fetched
parameter and any field value.
-/

open Real

/-! ## The host's parameter source -/

namespace TempLat

/-- Construction-time failures, after the error taxonomy of the model contract: a required key
that was not supplied, and a supplied value outside its domain. -/
inductive ConstructionError where
  | MissingParameter (key : String)
  | InvalidParameter (key : String) (constraint : String)

/-- Modelled from the spec: the host engine's `ParameterParser`, whose class is declared in the
CosmoLattice library and not in the model files.  It is a key-value configuration source with
type decoding for scalars and for fixed-length sequences. -/
structure ParameterParser where
  scalars : String → Option ℝ
  sequences : String → Option (List ℝ)

/-- Modelled from the spec: `parser.get<double>(key)` with no default value.  A required key
that is absent fails with `MissingParameter` identifying the key. -/
def ParameterParser.get (parser : ParameterParser) (key : String) :
    Except ConstructionError ℝ :=
  match parser.scalars key with
  | some v => Except.ok v
  | none => Except.error (ConstructionError.MissingParameter key)

/-- Modelled from the spec: `parser.get<double, 1>(key)` with no default value, the sequence
counterpart of `ParameterParser.get`. -/
def ParameterParser.getSeq (parser : ParameterParser) (key : String) :
    Except ConstructionError (List ℝ) :=
  match parser.sequences key with
  | some v => Except.ok v
  | none => Except.error (ConstructionError.MissingParameter key)

/-- Modelled from the spec: `parser.get<double, 1>(key, dflt)`, which yields the default when
the key is absent and so never fails. -/
def ParameterParser.getSeqD (parser : ParameterParser) (key : String) (dflt : List ℝ) :
    Except ConstructionError (List ℝ) :=
  match parser.sequences key with
  | some v => Except.ok v
  | none => Except.ok dflt

/-- The empty parameter file. -/
def emptyFile : ParameterParser where
  scalars := fun _ => none
  sequences := fun _ => none

end TempLat

/-! ## Double-precision arithmetic

The model files compute in C++ `double`.  The definitions of this section give the IEEE 754
binary64 semantics of the operations they use over the reals: every operation returns its exact
value rounded to nearest (ties to even), overflows to an infinity, and propagates NaN.  The
library functions `sqrt`, `tanh`, `cosh`, `sinh` and `pow` are taken as correctly rounded. -/

namespace IEEE754

/-- Rounding of a real to the nearest integer, ties to the even one. -/
noncomputable def roundHalfEven (y : ℝ) : ℤ :=
  if Int.fract y < 1 / 2 then ⌊y⌋
  else if 1 / 2 < Int.fract y then ⌊y⌋ + 1
  else if Even ⌊y⌋ then ⌊y⌋ else ⌊y⌋ + 1

/-- Binary exponent of the binade of `x`, held at `-1022` in the subnormal range. -/
noncomputable def binade (x : ℝ) : ℤ := max (Int.log 2 |x|) (-1022)

/-- Spacing of the doubles in the binade of `x`: 53 significant bits. -/
noncomputable def ulp (x : ℝ) : ℝ := (2 : ℝ) ^ (binade x - 52)

/-- Round to nearest, ties to even, onto the binary64 grid with gradual underflow; the
exponent is not yet bounded above. -/
noncomputable def roundNearest (x : ℝ) : ℝ := (roundHalfEven (x / ulp x) : ℝ) * ulp x

/-- Values of a C++ `double`: the finite ones by their real value (the two zeros, which
compare equal, are one value), the two infinities, and NaN.  An input `fin x` stands for the
double of value `x`; every operation rounds its result onto the binary64 grid, and a statement
for all `fin x` holds in particular for the doubles. -/
inductive Double where
  | fin (x : ℝ)
  | pinf
  | ninf
  | nan

/-- Result of an operation whose exact value is `x`: rounded to nearest, and an infinity once
the rounded magnitude reaches `2 ^ 1024`. -/
noncomputable def Double.ofReal (x : ℝ) : Double :=
  if (2 : ℝ) ^ (1024 : ℤ) ≤ roundNearest x then Double.pinf
  else if roundNearest x ≤ -(2 : ℝ) ^ (1024 : ℤ) then Double.ninf
  else Double.fin (roundNearest x)

/-- Double addition `a + b`. -/
noncomputable def Double.add : Double → Double → Double
  | Double.fin a, Double.fin b => Double.ofReal (a + b)
  | Double.fin _, Double.pinf => Double.pinf
  | Double.fin _, Double.ninf => Double.ninf
  | Double.pinf, Double.fin _ => Double.pinf
  | Double.pinf, Double.pinf => Double.pinf
  | Double.ninf, Double.fin _ => Double.ninf
  | Double.ninf, Double.ninf => Double.ninf
  | _, _ => Double.nan

/-- Double negation `-a`. -/
noncomputable def Double.neg : Double → Double
  | Double.fin a => Double.fin (-a)
  | Double.pinf => Double.ninf
  | Double.ninf => Double.pinf
  | Double.nan => Double.nan

/-- Double subtraction `a - b`. -/
noncomputable def Double.sub (a b : Double) : Double := Double.add a (Double.neg b)

/-- Product of an infinity of sign `s` (`true` for `+inf`) with a finite factor `b`. -/
noncomputable def Double.infTimes (s : Bool) (b : ℝ) : Double :=
  if b = 0 then Double.nan
  else if (0 < b) = (s = true) then Double.pinf else Double.ninf

/-- Double multiplication `a * b`. -/
noncomputable def Double.mul : Double → Double → Double
  | Double.fin a, Double.fin b => Double.ofReal (a * b)
  | Double.fin a, Double.pinf => Double.infTimes true a
  | Double.fin a, Double.ninf => Double.infTimes false a
  | Double.pinf, Double.fin b => Double.infTimes true b
  | Double.ninf, Double.fin b => Double.infTimes false b
  | Double.pinf, Double.pinf => Double.pinf
  | Double.ninf, Double.ninf => Double.pinf
  | Double.pinf, Double.ninf => Double.ninf
  | Double.ninf, Double.pinf => Double.ninf
  | _, _ => Double.nan

/-- Double division `a / b`. -/
noncomputable def Double.div : Double → Double → Double
  | Double.fin a, Double.fin b =>
    if b = 0 then
      (if a = 0 then Double.nan else if 0 < a then Double.pinf else Double.ninf)
    else Double.ofReal (a / b)
  | Double.fin _, Double.pinf => Double.fin 0
  | Double.fin _, Double.ninf => Double.fin 0
  | Double.pinf, Double.fin b => if 0 ≤ b then Double.pinf else Double.ninf
  | Double.ninf, Double.fin b => if 0 ≤ b then Double.ninf else Double.pinf
  | _, _ => Double.nan

/-- The library function `sqrt`. -/
noncomputable def Double.sqrt : Double → Double
  | Double.fin a => if a < 0 then Double.nan else Double.ofReal (Real.sqrt a)
  | Double.pinf => Double.pinf
  | _ => Double.nan

/-- The library function `tanh`, taken as correctly rounded. -/
noncomputable def Double.tanh : Double → Double
  | Double.fin a => Double.ofReal (Real.tanh a)
  | Double.pinf => Double.fin 1
  | Double.ninf => Double.fin (-1)
  | Double.nan => Double.nan

/-- The library function `cosh`, taken as correctly rounded. -/
noncomputable def Double.cosh : Double → Double
  | Double.fin a => Double.ofReal (Real.cosh a)
  | Double.pinf => Double.pinf
  | Double.ninf => Double.pinf
  | Double.nan => Double.nan

/-- The library function `sinh`, taken as correctly rounded. -/
noncomputable def Double.sinh : Double → Double
  | Double.fin a => Double.ofReal (Real.sinh a)
  | Double.pinf => Double.pinf
  | Double.ninf => Double.ninf
  | Double.nan => Double.nan

/-- The power `pow(a, n)` / `pow<n>(a)` with a positive integer exponent, taken as correctly
rounded. -/
noncomputable def Double.pow (a : Double) (n : ℕ) : Double :=
  match a with
  | Double.fin a => Double.ofReal (a ^ n)
  | Double.pinf => Double.pinf
  | Double.ninf => if Even n then Double.pinf else Double.ninf
  | Double.nan => Double.nan

/-- The double `d` has magnitude at least `c`: a finite value with `c ≤ |a|`, or an infinity. -/
def Double.absGe (d : Double) (c : ℝ) : Prop :=
  match d with
  | Double.fin a => c ≤ |a|
  | Double.pinf => True
  | Double.ninf => True
  | Double.nan => False

end IEEE754

/-! ## The single-field model -/

namespace higgs_palatini

/-- Number of scalar fields declared by `ModelPars`. -/
def NScalars : Nat := 1

/-- Number of potential terms declared by `ModelPars`. -/
def NPotTerms : Nat := 1

/-- Members of the model class: the private `Lambda`, `xi`, `sqrtxi`, and the rescaling
constants `fStar`, `alpha`, `omegaStar` inherited from the generic model. -/
structure Model where
  Lambda : ℝ
  xi : ℝ
  sqrtxi : ℝ
  fStar : ℝ
  alpha : ℝ
  omegaStar : ℝ

/-- Body of the constructor once `xi` and `Lambda` have been read from the parameter file:
the dependent parameter `sqrtxi` and the rescaling to program variables, as exact real values.
This is the constructor on its domain `xi > 0`, `Lambda > 0`; `binary64.construct` gives the
stored doubles for any fetched values. -/
noncomputable def construct (xi Lambda : ℝ) : Model :=
  let sqrtxi := Real.sqrt xi
  let fStar : ℝ := 2.435e18
  let alpha : ℝ := 0
  let omegaStar := Real.sqrt Lambda * fStar / (2 * xi)
  { Lambda := Lambda, xi := xi, sqrtxi := sqrtxi,
    fStar := fStar, alpha := alpha, omegaStar := omegaStar }

/-- Inflaton potential energy, `potentialTerms(Tag<0>)`. -/
noncomputable def potentialTerms_Tag0 (m : Model) (fldS : Fin 1 → ℝ) : ℝ :=
  (Real.tanh (m.sqrtxi * fldS 0)) ^ 4

/-- Derivative with respect to the inflaton, `potDeriv(Tag<0>)`. -/
noncomputable def potDeriv_Tag0 (m : Model) (fldS : Fin 1 → ℝ) : ℝ :=
  let tanarg := m.sqrtxi * fldS 0
  let num := 4 * m.sqrtxi * (Real.tanh tanarg) ^ 3
  let den := (Real.cosh tanarg) ^ 2
  num / den

/-- Second derivative with respect to the inflaton, `potDeriv2(Tag<0>)`. -/
noncomputable def potDeriv2_Tag0 (m : Model) (fldS : Fin 1 → ℝ) : ℝ :=
  let tanarg := m.sqrtxi * fldS 0
  let num1 := 4 * m.xi * (4 - Real.cosh (2 * tanarg))
  let num2 := (Real.tanh tanarg) ^ 2
  let den1 := (Real.cosh tanarg) ^ 4
  num1 * num2 / den1

namespace binary64

open IEEE754

/-- Members of the model class as the `double` values the program stores. -/
structure Model where
  Lambda : Double
  xi : Double
  sqrtxi : Double
  fStar : Double
  alpha : Double
  omegaStar : Double

/-- Body of the constructor in double precision, for any fetched `xi` and `Lambda`:
`sqrtxi = sqrt(xi)`, `fStar = 2.435e18`, `alpha = 0`,
`omegaStar = sqrt(Lambda) * fStar / (2 * xi)`. -/
noncomputable def construct (xi Lambda : Double) : Model :=
  let sqrtxi := Double.sqrt xi
  let fStar := Double.fin 2.435e18
  let alpha := Double.fin 0
  let omegaStar :=
    Double.div (Double.mul (Double.sqrt Lambda) fStar) (Double.mul (Double.fin 2) xi)
  { Lambda := Lambda, xi := xi, sqrtxi := sqrtxi,
    fStar := fStar, alpha := alpha, omegaStar := omegaStar }

/-- The value `potentialTerms(Tag<0>)` returns in double precision:
`pow(tanh(sqrtxi * fldS(0_c)), 4)`. -/
noncomputable def potentialTerms_Tag0 (m : Model) (fldS : Fin 1 → Double) : Double :=
  Double.pow (Double.tanh (Double.mul m.sqrtxi (fldS 0))) 4

/-- The value `potDeriv(Tag<0>)` returns in double precision. -/
noncomputable def potDeriv_Tag0 (m : Model) (fldS : Fin 1 → Double) : Double :=
  let tanarg := Double.mul m.sqrtxi (fldS 0)
  let num := Double.mul (Double.mul (Double.fin 4) m.sqrtxi) (Double.pow (Double.tanh tanarg) 3)
  let den := Double.pow (Double.cosh tanarg) 2
  Double.div num den

/-- The value `potDeriv2(Tag<0>)` returns in double precision. -/
noncomputable def potDeriv2_Tag0 (m : Model) (fldS : Fin 1 → Double) : Double :=
  let tanarg := Double.mul m.sqrtxi (fldS 0)
  let num1 := Double.mul (Double.mul (Double.fin 4) m.xi)
    (Double.sub (Double.fin 4) (Double.cosh (Double.mul (Double.fin 2) tanarg)))
  let num2 := Double.pow (Double.tanh tanarg) 2
  let den1 := Double.pow (Double.cosh tanarg) 4
  Double.div (Double.mul num1 num2) den1

end binary64

/-- The model object after construction: the initial homogeneous components `fldS0`, `piS0`
and the members of the class as stored in double precision. -/
structure Instance where
  fldS0 : List ℝ
  piS0 : List ℝ
  pars : binary64.Model

/-- The constructor `MODELNAME(parser, runPar, toolBox)`: the reads from the parameter file in
the order of the source, then the dependent parameter and the rescaling, computed in double
precision from the fetched values whatever they are.  The closing call
`setInitialPotentialAndMassesFromPotential()` belongs to the host engine. -/
noncomputable def MODELNAME (parser : TempLat.ParameterParser) :
    Except TempLat.ConstructionError Instance := do
  let fldS0 ← parser.getSeq "initial_amplitudes"
  let piS0 ← parser.getSeqD "initial_momenta" [0]
  let xi ← parser.get "xi"
  let Lambda ← parser.get "Lambda"
  pure { fldS0 := fldS0, piS0 := piS0,
         pars := binary64.construct (IEEE754.Double.fin xi) (IEEE754.Double.fin Lambda) }

end higgs_palatini

/-! ## The multi-field (gauge) model -/

namespace higgs_palatini_gauge_scalars

/-- Number of scalar fields declared by `ModelPars`. -/
def NScalars : Nat := 4

/-- Number of potential terms declared by `ModelPars`. -/
def NPotTerms : Nat := 4

/-- Members of the model class: the private `Lambda`, `xi`, `g`, `gz`, and the rescaling
constants `fStar`, `alpha`, `omegaStar` inherited from the generic model. -/
structure Model where
  Lambda : ℝ
  xi : ℝ
  g : ℝ
  gz : ℝ
  fStar : ℝ
  alpha : ℝ
  omegaStar : ℝ

/-- Body of the constructor once `xi`, `Lambda`, `g` and `gz` have been read from the
parameter file: the rescaling to program variables, as exact real values.  This is the
constructor on its domain `xi > 0`, `Lambda > 0`; `binary64.construct` gives the stored doubles
for any fetched values. -/
noncomputable def construct (xi Lambda g gz : ℝ) : Model :=
  let fStar : ℝ := 2.435e18
  let alpha : ℝ := 0
  let omegaStar := Real.sqrt Lambda * 2.435e18 / (2 * xi)
  { Lambda := Lambda, xi := xi, g := g, gz := gz,
    fStar := fStar, alpha := alpha, omegaStar := omegaStar }

/-- Inflaton potential energy, `potentialTerms(Tag<0>)`. -/
noncomputable def potentialTerms_Tag0 (m : Model) (fldS : Fin 4 → ℝ) : ℝ :=
  let sharg := Real.sqrt m.xi * fldS 0
  (Real.tanh sharg) ^ 4

/-- W+ potential energy, `potentialTerms(Tag<1>)`. -/
noncomputable def potentialTerms_Tag1 (m : Model) (fldS : Fin 4 → ℝ) : ℝ :=
  let sharg := Real.sqrt m.xi * fldS 0
  0.5 * m.xi / m.Lambda * (Real.tanh sharg) ^ 2 / (Real.cosh sharg) ^ 2 * m.g ^ 2 * (fldS 1) ^ 2

/-- W- potential energy, `potentialTerms(Tag<2>)`. -/
noncomputable def potentialTerms_Tag2 (m : Model) (fldS : Fin 4 → ℝ) : ℝ :=
  let sharg := Real.sqrt m.xi * fldS 0
  0.5 * m.xi / m.Lambda * (Real.tanh sharg) ^ 2 / (Real.cosh sharg) ^ 2 * m.g ^ 2 * (fldS 2) ^ 2

/-- Z0 potential energy, `potentialTerms(Tag<3>)`. -/
noncomputable def potentialTerms_Tag3 (m : Model) (fldS : Fin 4 → ℝ) : ℝ :=
  let sharg := Real.sqrt m.xi * fldS 0
  0.5 * m.xi / m.Lambda * (Real.tanh sharg) ^ 2 / (Real.cosh sharg) ^ 2 * m.gz ^ 2 * (fldS 3) ^ 2

/-- Derivative with respect to the inflaton, `potDeriv(Tag<0>)`.  The source takes
`cosh(2*fldS(0_c))` in `inp11`, and so does this definition. -/
noncomputable def potDeriv_Tag0 (m : Model) (fldS : Fin 4 → ℝ) : ℝ :=
  let sharg := Real.sqrt m.xi * fldS 0
  let globalfact := 0.5 * Real.sqrt m.xi / m.Lambda * Real.tanh sharg / (Real.cosh sharg) ^ 4
  let inp11 := m.xi * (3 - Real.cosh (2 * fldS 0))
  let inp12 := m.g * m.g * ((fldS 1) ^ 2 + (fldS 2) ^ 2) + m.gz * m.gz * (fldS 3) ^ 2
  let inp2 := 8 * m.Lambda * (Real.sinh sharg) ^ 2
  globalfact * (inp11 * inp12 + inp2)

/-- Derivative with respect to W+, `potDeriv(Tag<1>)`. -/
noncomputable def potDeriv_Tag1 (m : Model) (fldS : Fin 4 → ℝ) : ℝ :=
  let sharg := Real.sqrt m.xi * fldS 0
  m.xi / m.Lambda * (Real.tanh sharg) ^ 2 / (Real.cosh sharg) ^ 2 * m.g * m.g * fldS 1

/-- Derivative with respect to W-, `potDeriv(Tag<2>)`. -/
noncomputable def potDeriv_Tag2 (m : Model) (fldS : Fin 4 → ℝ) : ℝ :=
  let sharg := Real.sqrt m.xi * fldS 0
  m.xi / m.Lambda * (Real.tanh sharg) ^ 2 / (Real.cosh sharg) ^ 2 * m.g * m.g * fldS 2

/-- Derivative with respect to Z0, `potDeriv(Tag<3>)`. -/
noncomputable def potDeriv_Tag3 (m : Model) (fldS : Fin 4 → ℝ) : ℝ :=
  let sharg := Real.sqrt m.xi * fldS 0
  m.xi / m.Lambda * (Real.tanh sharg) ^ 2 / (Real.cosh sharg) ^ 2 * m.gz * m.gz * fldS 3

/-- Second derivative with respect to the inflaton, `potDeriv2(Tag<0>)`. -/
noncomputable def potDeriv2_Tag0 (m : Model) (fldS : Fin 4 → ℝ) : ℝ :=
  let sharg := Real.sqrt m.xi * fldS 0
  let globalfactor := m.xi / m.Lambda / (Real.cosh sharg) ^ 4
  let bosonsum := m.g * m.g * ((fldS 1) ^ 2 + (fldS 2) ^ 2) + m.gz * m.gz * (fldS 3) ^ 2
  let term1 := (Real.cosh (2 * sharg) - 10 * (Real.tanh sharg) ^ 2) * m.xi * bosonsum
  let term2 := -4 * m.Lambda * (Real.cosh (2 * sharg) - 4) * (Real.tanh sharg) ^ 2
  globalfactor * (term1 + term2)

/-- Second derivative with respect to W+, `potDeriv2(Tag<1>)`. -/
noncomputable def potDeriv2_Tag1 (m : Model) (fldS : Fin 4 → ℝ) : ℝ :=
  let sharg := Real.sqrt m.xi * fldS 0
  m.xi / m.Lambda * (Real.tanh sharg) ^ 2 / (Real.cosh sharg) ^ 2 * m.g * m.g

/-- Second derivative with respect to W-, `potDeriv2(Tag<2>)`. -/
noncomputable def potDeriv2_Tag2 (m : Model) (fldS : Fin 4 → ℝ) : ℝ :=
  let sharg := Real.sqrt m.xi * fldS 0
  m.xi / m.Lambda * (Real.tanh sharg) ^ 2 / (Real.cosh sharg) ^ 2 * m.g * m.g

/-- Second derivative with respect to Z0, `potDeriv2(Tag<3>)`. -/
noncomputable def potDeriv2_Tag3 (m : Model) (fldS : Fin 4 → ℝ) : ℝ :=
  let sharg := Real.sqrt m.xi * fldS 0
  m.xi / m.Lambda * (Real.tanh sharg) ^ 2 / (Real.cosh sharg) ^ 2 * m.gz * m.gz

/-- Total potential: the sum of the `NPotTerms` potential terms, as the host engine forms it. -/
noncomputable def potential (m : Model) (fldS : Fin 4 → ℝ) : ℝ :=
  potentialTerms_Tag0 m fldS + potentialTerms_Tag1 m fldS
    + potentialTerms_Tag2 m fldS + potentialTerms_Tag3 m fldS

/-- Analytic derivative of the total potential with respect to the inflaton: the expression of
`potDeriv(Tag<0>)` with the hyperbolic argument `2*sharg` in `inp11`, as `potDeriv2(Tag<0>)`
has it. -/
noncomputable def potDeriv_Tag0_analytic (m : Model) (fldS : Fin 4 → ℝ) : ℝ :=
  let sharg := Real.sqrt m.xi * fldS 0
  let globalfact := 0.5 * Real.sqrt m.xi / m.Lambda * Real.tanh sharg / (Real.cosh sharg) ^ 4
  let inp11 := m.xi * (3 - Real.cosh (2 * sharg))
  let inp12 := m.g * m.g * ((fldS 1) ^ 2 + (fldS 2) ^ 2) + m.gz * m.gz * (fldS 3) ^ 2
  let inp2 := 8 * m.Lambda * (Real.sinh sharg) ^ 2
  globalfact * (inp11 * inp12 + inp2)

namespace binary64

open IEEE754

/-- Members of the model class as the `double` values the program stores. -/
structure Model where
  Lambda : Double
  xi : Double
  g : Double
  gz : Double
  fStar : Double
  alpha : Double
  omegaStar : Double

/-- Body of the constructor in double precision, for any fetched parameters:
`fStar = 2.435e18`, `alpha = 0`, `omegaStar = sqrt(Lambda) * 2.435e18 / (2 * xi)`. -/
noncomputable def construct (xi Lambda g gz : Double) : Model :=
  let fStar := Double.fin 2.435e18
  let alpha := Double.fin 0
  let omegaStar :=
    Double.div (Double.mul (Double.sqrt Lambda) (Double.fin 2.435e18))
      (Double.mul (Double.fin 2) xi)
  { Lambda := Lambda, xi := xi, g := g, gz := gz,
    fStar := fStar, alpha := alpha, omegaStar := omegaStar }

/-- The value `potDeriv(Tag<0>)` returns in double precision. -/
noncomputable def potDeriv_Tag0 (m : Model) (fldS : Fin 4 → Double) : Double :=
  let sharg := Double.mul (Double.sqrt m.xi) (fldS 0)
  let globalfact :=
    Double.div
      (Double.mul (Double.div (Double.mul (Double.fin 0.5) (Double.sqrt m.xi)) m.Lambda)
        (Double.tanh sharg))
      (Double.pow (Double.cosh sharg) 4)
  let inp11 := Double.mul m.xi
    (Double.sub (Double.fin 3) (Double.cosh (Double.mul (Double.fin 2) (fldS 0))))
  let inp12 := Double.add
    (Double.mul (Double.mul m.g m.g) (Double.add (Double.pow (fldS 1) 2) (Double.pow (fldS 2) 2)))
    (Double.mul (Double.mul m.gz m.gz) (Double.pow (fldS 3) 2))
  let inp2 := Double.mul (Double.mul (Double.fin 8) m.Lambda) (Double.pow (Double.sinh sharg) 2)
  Double.mul globalfact (Double.add (Double.mul inp11 inp12) inp2)

end binary64

/-- The model object after construction: the initial homogeneous components `fldS0`, `piS0`
and the members of the class as stored in double precision. -/
structure Instance where
  fldS0 : List ℝ
  piS0 : List ℝ
  pars : binary64.Model

/-- The constructor `MODELNAME(parser, runPar, toolBox)`: the reads from the parameter file in
the order of the source, then the rescaling, computed in double precision from the fetched
values whatever they are.  The closing call `setInitialPotentialAndMassesFromPotential()`
belongs to the host engine. -/
noncomputable def MODELNAME (parser : TempLat.ParameterParser) :
    Except TempLat.ConstructionError Instance := do
  let fldS0 ← parser.getSeqD "initial_amplitudes" [0]
  let piS0 ← parser.getSeqD "initial_momenta" [0]
  let xi ← parser.get "xi"
  let Lambda ← parser.get "Lambda"
  let g ← parser.get "g"
  let gz ← parser.get "gz"
  pure { fldS0 := fldS0, piS0 := piS0,
         pars := binary64.construct (IEEE754.Double.fin xi) (IEEE754.Double.fin Lambda)
           (IEEE754.Double.fin g) (IEEE754.Double.fin gz) }

end higgs_palatini_gauge_scalars

/-! ## Calculus of the hyperbolic building blocks -/

namespace Hyperbolic

/-- The hyperbolic tangent has derivative `1 / cosh ^ 2`. -/
theorem hasDerivAt_tanh (x : ℝ) : HasDerivAt Real.tanh (1 / Real.cosh x ^ 2) x := by
  have hc : Real.cosh x ≠ 0 := (Real.cosh_pos x).ne'
  have h := (Real.hasDerivAt_sinh x).div (Real.hasDerivAt_cosh x) hc
  have hfun : (fun y => Real.sinh y / Real.cosh y) = Real.tanh := by
    funext y
    exact (Real.tanh_eq_sinh_div_cosh y).symm
  rw [hfun] at h
  convert h using 1
  have hsq := Real.cosh_sq x
  field_simp
  nlinarith [hsq]

/-- Derivative of `tanh ^ 3 / cosh ^ 2`. -/
theorem hasDerivAt_tanh_cube_div (x : ℝ) :
    HasDerivAt (fun y => Real.tanh y ^ 3 / Real.cosh y ^ 2)
      ((4 - Real.cosh (2 * x)) * Real.tanh x ^ 2 / Real.cosh x ^ 4) x := by
  have hc : Real.cosh x ≠ 0 := (Real.cosh_pos x).ne'
  have h := ((hasDerivAt_tanh x).pow 3).div ((Real.hasDerivAt_cosh x).pow 2) (pow_ne_zero 2 hc)
  convert h using 1
  have he : Real.exp x ≠ 0 := (Real.exp_pos x).ne'
  have hc2 : Real.exp x * Real.exp x + 1 ≠ 0 := by positivity
  rw [Real.cosh_two_mul, Real.tanh_eq_sinh_div_cosh, Real.cosh_eq, Real.sinh_eq, Real.exp_neg]
  field_simp
  ring

/-- Derivative of the gauge envelope `tanh ^ 2 / cosh ^ 2`. -/
theorem hasDerivAt_envelope (x : ℝ) :
    HasDerivAt (fun y => Real.tanh y ^ 2 / Real.cosh y ^ 2)
      (Real.tanh x * (3 - Real.cosh (2 * x)) / Real.cosh x ^ 4) x := by
  have hc : Real.cosh x ≠ 0 := (Real.cosh_pos x).ne'
  have h := ((hasDerivAt_tanh x).pow 2).div ((Real.hasDerivAt_cosh x).pow 2) (pow_ne_zero 2 hc)
  convert h using 1
  have he : Real.exp x ≠ 0 := (Real.exp_pos x).ne'
  have hc2 : Real.exp x * Real.exp x + 1 ≠ 0 := by positivity
  rw [Real.cosh_two_mul, Real.tanh_eq_sinh_div_cosh, Real.cosh_eq, Real.sinh_eq, Real.exp_neg]
  field_simp
  ring

/-- Derivative of `cosh (2 * y)`. -/
theorem hasDerivAt_cosh_two_mul (x : ℝ) :
    HasDerivAt (fun y => Real.cosh (2 * y)) (2 * Real.sinh (2 * x)) x := by
  have hlin : HasDerivAt (fun p : ℝ => 2 * p) 2 x := by
    simpa using (hasDerivAt_id x).const_mul (2 : ℝ)
  have h := (Real.hasDerivAt_cosh (2 * x)).comp x hlin
  convert h using 1
  ring

/-- Derivative of `tanh / cosh ^ 4`. -/
theorem hasDerivAt_tanh_div_cosh_pow (x : ℝ) :
    HasDerivAt (fun y => Real.tanh y / Real.cosh y ^ 4)
      ((1 - 4 * Real.sinh x ^ 2) / Real.cosh x ^ 6) x := by
  have hc : Real.cosh x ≠ 0 := (Real.cosh_pos x).ne'
  have h := (hasDerivAt_tanh x).div ((Real.hasDerivAt_cosh x).pow 4) (pow_ne_zero 4 hc)
  convert h using 1
  have he : Real.exp x ≠ 0 := (Real.exp_pos x).ne'
  have hc2 : Real.exp x * Real.exp x + 1 ≠ 0 := by positivity
  rw [Real.tanh_eq_sinh_div_cosh, Real.cosh_eq, Real.sinh_eq, Real.exp_neg]
  field_simp
  ring

/-- Derivative of `tanh * (3 - cosh (2 ·)) / cosh ^ 4`, the derivative of the envelope. -/
theorem hasDerivAt_envelope_deriv (x : ℝ) :
    HasDerivAt (fun y => Real.tanh y * (3 - Real.cosh (2 * y)) / Real.cosh y ^ 4)
      (2 * (Real.cosh (2 * x) - 10 * Real.tanh x ^ 2) / Real.cosh x ^ 4) x := by
  have hc : Real.cosh x ≠ 0 := (Real.cosh_pos x).ne'
  have h := ((hasDerivAt_tanh x).mul ((hasDerivAt_cosh_two_mul x).const_sub 3)).div
    ((Real.hasDerivAt_cosh x).pow 4) (pow_ne_zero 4 hc)
  convert h using 1
  have he : Real.exp x ≠ 0 := (Real.exp_pos x).ne'
  have hc2 : Real.exp x * Real.exp x + 1 ≠ 0 := by positivity
  rw [Real.sinh_two_mul, Real.cosh_two_mul, Real.tanh_eq_sinh_div_cosh, Real.cosh_eq,
    Real.sinh_eq, Real.exp_neg]
  field_simp
  ring

/-- Chain rule for a rescaled argument: if `f` has derivative `d` at `s * x`, then
`p ↦ f (s * p)` has derivative `s * d` at `x`. -/
theorem hasDerivAt_comp_mul {f : ℝ → ℝ} {d : ℝ} (s x : ℝ) (hf : HasDerivAt f d (s * x)) :
    HasDerivAt (fun p => f (s * p)) (s * d) x := by
  have hlin : HasDerivAt (fun p : ℝ => s * p) s x := by
    simpa using (hasDerivAt_id x).const_mul s
  have h := hf.comp x hlin
  convert h using 1
  ring

end Hyperbolic

/-! ## Single-field model: gradient and Hessian -/

namespace higgs_palatini

/-- C1: for `xi > 0` and every field value `phi`, the map `phi ↦ potentialTerms(Tag<0>)`
is differentiable at `phi` with derivative `potDeriv(Tag<0>)`. -/
theorem potentialTerms_hasDerivAt_potDeriv (xi Lambda phi : ℝ) (_hxi : 0 < xi) :
    HasDerivAt (fun p => potentialTerms_Tag0 (construct xi Lambda) ![p])
      (potDeriv_Tag0 (construct xi Lambda) ![phi]) phi := by
  have h := (Hyperbolic.hasDerivAt_comp_mul (Real.sqrt xi) phi
    (Hyperbolic.hasDerivAt_tanh (Real.sqrt xi * phi))).pow 4
  simp only [potentialTerms_Tag0, potDeriv_Tag0, construct, Matrix.cons_val_zero]
  convert h using 1
  have hc : Real.cosh (Real.sqrt xi * phi) ≠ 0 := (Real.cosh_pos _).ne'
  field_simp
  ring

/-- Witness for C1 at `xi = 1`, `Lambda = 1`, `phi = 0`. -/
theorem potentialTerms_hasDerivAt_potDeriv_witness :
    (0 : ℝ) < 1 ∧ HasDerivAt (fun p => potentialTerms_Tag0 (construct 1 1) ![p])
      (potDeriv_Tag0 (construct 1 1) ![0]) 0 :=
  ⟨one_pos, potentialTerms_hasDerivAt_potDeriv 1 1 0 one_pos⟩

/-- C3: for `xi > 0` and every `phi`, the map `phi ↦ potDeriv(Tag<0>)` is differentiable at
`phi` with derivative `potDeriv2(Tag<0>)`: the coded factor `4 - cosh(2*tanarg)` is the
analytic one. -/
theorem potDeriv_hasDerivAt_potDeriv2 (xi Lambda phi : ℝ) (hxi : 0 < xi) :
    HasDerivAt (fun p => potDeriv_Tag0 (construct xi Lambda) ![p])
      (potDeriv2_Tag0 (construct xi Lambda) ![phi]) phi := by
  have h := (Hyperbolic.hasDerivAt_comp_mul (Real.sqrt xi) phi
    (Hyperbolic.hasDerivAt_tanh_cube_div (Real.sqrt xi * phi))).const_mul (4 * Real.sqrt xi)
  simp only [potDeriv_Tag0, potDeriv2_Tag0, construct, Matrix.cons_val_zero]
  have hfun : (fun p => 4 * Real.sqrt xi * Real.tanh (Real.sqrt xi * p) ^ 3
        / Real.cosh (Real.sqrt xi * p) ^ 2)
      = fun p => 4 * Real.sqrt xi * (Real.tanh (Real.sqrt xi * p) ^ 3
        / Real.cosh (Real.sqrt xi * p) ^ 2) := by
    funext p
    ring
  rw [hfun]
  convert h using 1
  have hs : Real.sqrt xi * Real.sqrt xi = xi := Real.mul_self_sqrt hxi.le
  have hc : Real.cosh (Real.sqrt xi * phi) ≠ 0 := (Real.cosh_pos _).ne'
  field_simp
  linear_combination (-(4 * (4 - Real.cosh (2 * (Real.sqrt xi * phi)))
    * Real.tanh (Real.sqrt xi * phi) ^ 2)) * hs

/-- Witness for C3 at `xi = 1`, `Lambda = 1`, `phi = 0`. -/
theorem potDeriv_hasDerivAt_potDeriv2_witness :
    (0 : ℝ) < 1 ∧ HasDerivAt (fun p => potDeriv_Tag0 (construct 1 1) ![p])
      (potDeriv2_Tag0 (construct 1 1) ![0]) 0 :=
  ⟨one_pos, potDeriv_hasDerivAt_potDeriv2 1 1 0 one_pos⟩

end higgs_palatini

/-! ## Single-field model: boundedness and saturation -/

namespace Hyperbolic

/-- The square of the hyperbolic tangent stays below one. -/
theorem tanh_sq_lt_one (x : ℝ) : Real.tanh x ^ 2 < 1 := by
  have hc : 0 < Real.cosh x := Real.cosh_pos x
  rw [Real.tanh_eq_sinh_div_cosh, div_pow, div_lt_one (pow_pos hc 2), Real.cosh_sq x]
  linarith

/-- The fourth power of the hyperbolic tangent stays below one. -/
theorem tanh_pow_four_lt_one (x : ℝ) : Real.tanh x ^ 4 < 1 := by
  have h := tanh_sq_lt_one x
  have h0 : 0 ≤ Real.tanh x ^ 2 := sq_nonneg _
  nlinarith

/-- The hyperbolic tangent written with a single exponential. -/
theorem tanh_eq_one_sub (x : ℝ) : Real.tanh x = 1 - 2 / (Real.exp (2 * x) + 1) := by
  have he : Real.exp x ≠ 0 := (Real.exp_pos x).ne'
  have h2 : Real.exp x * Real.exp x + 1 ≠ 0 := by positivity
  rw [Real.tanh_eq_sinh_div_cosh, Real.cosh_eq, Real.sinh_eq, Real.exp_neg, two_mul,
    Real.exp_add]
  field_simp
  ring

/-- The hyperbolic tangent tends to one at `+∞`. -/
theorem tendsto_tanh_atTop : Filter.Tendsto Real.tanh Filter.atTop (nhds 1) := by
  have hexp : Filter.Tendsto (fun x : ℝ => Real.exp (2 * x) + 1) Filter.atTop Filter.atTop :=
    Filter.tendsto_atTop_add_const_right _ _
      (Real.tendsto_exp_atTop.comp
        (Filter.Tendsto.const_mul_atTop (by norm_num : (0 : ℝ) < 2) Filter.tendsto_id))
  have hfrac : Filter.Tendsto (fun x : ℝ => 2 / (Real.exp (2 * x) + 1)) Filter.atTop (nhds 0) :=
    (tendsto_const_nhds (x := (2 : ℝ))).div_atTop hexp
  have h := (tendsto_const_nhds (x := (1 : ℝ))).sub hfrac
  rw [sub_zero] at h
  have hfun : Real.tanh = fun x => 1 - 2 / (Real.exp (2 * x) + 1) := by
    funext x
    exact tanh_eq_one_sub x
  rw [hfun]
  exact h

/-- For a positive scale `s`, `tanh (s * p) ^ 4` tends to one as `p → +∞`. -/
theorem tendsto_tanh_mul_pow_atTop {s : ℝ} (hs : 0 < s) :
    Filter.Tendsto (fun p => Real.tanh (s * p) ^ 4) Filter.atTop (nhds 1) := by
  have hlin : Filter.Tendsto (fun p : ℝ => s * p) Filter.atTop Filter.atTop :=
    Filter.Tendsto.const_mul_atTop hs Filter.tendsto_id
  have h := (tendsto_tanh_atTop.comp hlin).pow 4
  rw [one_pow] at h
  exact h

/-- For a positive scale `s`, `tanh (s * p) ^ 4` tends to one as `p → -∞`. -/
theorem tendsto_tanh_mul_pow_atBot {s : ℝ} (hs : 0 < s) :
    Filter.Tendsto (fun p => Real.tanh (s * p) ^ 4) Filter.atBot (nhds 1) := by
  have h := (tendsto_tanh_mul_pow_atTop hs).comp Filter.tendsto_neg_atBot_atTop
  have hfun : (fun p => Real.tanh (s * p) ^ 4) ∘ Neg.neg = fun p => Real.tanh (s * p) ^ 4 := by
    funext p
    simp only [Function.comp, mul_neg, Real.tanh_neg]
    ring
  rw [hfun] at h
  exact h

end Hyperbolic

namespace higgs_palatini

/-- For `xi > 0` and every field value `phi`, the exact value of the formula of
`potentialTerms(Tag<0>)` lies in `[0, 1)`, and it is `0` at `phi = 0`. -/
theorem potentialTerms_bounded (xi Lambda phi : ℝ) (_hxi : 0 < xi) :
    0 ≤ potentialTerms_Tag0 (construct xi Lambda) ![phi]
      ∧ potentialTerms_Tag0 (construct xi Lambda) ![phi] < 1
      ∧ potentialTerms_Tag0 (construct xi Lambda) ![0] = 0 := by
  simp only [potentialTerms_Tag0, construct, Matrix.cons_val_zero]
  refine ⟨?_, Hyperbolic.tanh_pow_four_lt_one _, by simp⟩
  positivity

/-- For `xi > 0`, the exact value of the formula of `potentialTerms(Tag<0>)` tends to `1` as
`phi → +∞` and as `phi → -∞`, and it is below `1` at every field value. -/
theorem potentialTerms_saturates (xi Lambda : ℝ) (hxi : 0 < xi) :
    Filter.Tendsto (fun phi => potentialTerms_Tag0 (construct xi Lambda) ![phi])
        Filter.atTop (nhds 1)
      ∧ Filter.Tendsto (fun phi => potentialTerms_Tag0 (construct xi Lambda) ![phi])
        Filter.atBot (nhds 1)
      ∧ ∀ phi, potentialTerms_Tag0 (construct xi Lambda) ![phi] < 1 := by
  have hs : 0 < Real.sqrt xi := Real.sqrt_pos.mpr hxi
  simp only [potentialTerms_Tag0, construct, Matrix.cons_val_zero]
  exact ⟨Hyperbolic.tendsto_tanh_mul_pow_atTop hs, Hyperbolic.tendsto_tanh_mul_pow_atBot hs,
    fun phi => Hyperbolic.tanh_pow_four_lt_one _⟩

end higgs_palatini

/-! ## Gauge model: the inflaton direction -/

namespace higgs_palatini_gauge_scalars

/-- The coded `potDeriv(Tag<0>)` is the analytic inflaton derivative plus a defect term that
carries the difference of the two hyperbolic arguments of `inp11`. -/
theorem potDeriv_Tag0_eq_analytic_add (m : Model) (fldS : Fin 4 → ℝ) :
    potDeriv_Tag0 m fldS = potDeriv_Tag0_analytic m fldS
      + 0.5 * Real.sqrt m.xi / m.Lambda * m.xi
        * (m.g * m.g * ((fldS 1) ^ 2 + (fldS 2) ^ 2) + m.gz * m.gz * (fldS 3) ^ 2)
        * (Real.tanh (Real.sqrt m.xi * fldS 0) / Real.cosh (Real.sqrt m.xi * fldS 0) ^ 4
          * (Real.cosh (2 * (Real.sqrt m.xi * fldS 0)) - Real.cosh (2 * fldS 0))) := by
  simp only [potDeriv_Tag0, potDeriv_Tag0_analytic]
  ring

/-- The total potential is differentiable in the inflaton, with derivative the analytic
expression `potDeriv_Tag0_analytic`. -/
theorem potential_hasDerivAt_analytic (m : Model) (hL : m.Lambda ≠ 0) (φ0 φ1 φ2 φ3 : ℝ) :
    HasDerivAt (fun p => potential m ![p, φ1, φ2, φ3])
      (potDeriv_Tag0_analytic m ![φ0, φ1, φ2, φ3]) φ0 := by
  have hT := (Hyperbolic.hasDerivAt_comp_mul (Real.sqrt m.xi) φ0
    (Hyperbolic.hasDerivAt_tanh (Real.sqrt m.xi * φ0))).pow 4
  have hE := Hyperbolic.hasDerivAt_comp_mul (Real.sqrt m.xi) φ0
    (Hyperbolic.hasDerivAt_envelope (Real.sqrt m.xi * φ0))
  have h := hT.add (hE.const_mul
    (0.5 * m.xi / m.Lambda * (m.g ^ 2 * φ1 ^ 2 + m.g ^ 2 * φ2 ^ 2 + m.gz ^ 2 * φ3 ^ 2)))
  have hfun : (fun p => potential m ![p, φ1, φ2, φ3])
      = fun p => Real.tanh (Real.sqrt m.xi * p) ^ 4
        + 0.5 * m.xi / m.Lambda * (m.g ^ 2 * φ1 ^ 2 + m.g ^ 2 * φ2 ^ 2 + m.gz ^ 2 * φ3 ^ 2)
          * (Real.tanh (Real.sqrt m.xi * p) ^ 2 / Real.cosh (Real.sqrt m.xi * p) ^ 2) := by
    funext p
    simp [potential, potentialTerms_Tag0, potentialTerms_Tag1, potentialTerms_Tag2,
      potentialTerms_Tag3]
    ring
  rw [hfun]
  convert h using 1
  simp [potDeriv_Tag0_analytic]
  have hc : Real.cosh (Real.sqrt m.xi * φ0) ≠ 0 := (Real.cosh_pos _).ne'
  rw [Real.tanh_eq_sinh_div_cosh]
  field_simp
  ring

/-- The analytic inflaton derivative is differentiable in the inflaton, with derivative the
coded `potDeriv2(Tag<0>)`. -/
theorem analytic_hasDerivAt_potDeriv2 (m : Model) (hxi : 0 ≤ m.xi) (hL : m.Lambda ≠ 0)
    (φ0 φ1 φ2 φ3 : ℝ) :
    HasDerivAt (fun p => potDeriv_Tag0_analytic m ![p, φ1, φ2, φ3])
      (potDeriv2_Tag0 m ![φ0, φ1, φ2, φ3]) φ0 := by
  have hG := Hyperbolic.hasDerivAt_comp_mul (Real.sqrt m.xi) φ0
    (Hyperbolic.hasDerivAt_envelope_deriv (Real.sqrt m.xi * φ0))
  have hT := Hyperbolic.hasDerivAt_comp_mul (Real.sqrt m.xi) φ0
    (Hyperbolic.hasDerivAt_tanh_cube_div (Real.sqrt m.xi * φ0))
  have h := (hG.const_mul (0.5 * Real.sqrt m.xi / m.Lambda * m.xi
      * (m.g * m.g * (φ1 ^ 2 + φ2 ^ 2) + m.gz * m.gz * φ3 ^ 2))).add
    (hT.const_mul (4 * Real.sqrt m.xi))
  have hfun : (fun p => potDeriv_Tag0_analytic m ![p, φ1, φ2, φ3])
      = fun p => 0.5 * Real.sqrt m.xi / m.Lambda * m.xi
          * (m.g * m.g * (φ1 ^ 2 + φ2 ^ 2) + m.gz * m.gz * φ3 ^ 2)
          * (Real.tanh (Real.sqrt m.xi * p) * (3 - Real.cosh (2 * (Real.sqrt m.xi * p)))
            / Real.cosh (Real.sqrt m.xi * p) ^ 4)
        + 4 * Real.sqrt m.xi * (Real.tanh (Real.sqrt m.xi * p) ^ 3
            / Real.cosh (Real.sqrt m.xi * p) ^ 2) := by
    funext p
    have hc : Real.cosh (Real.sqrt m.xi * p) ≠ 0 := (Real.cosh_pos _).ne'
    simp [potDeriv_Tag0_analytic]
    rw [Real.tanh_eq_sinh_div_cosh]
    field_simp
    ring
  rw [hfun]
  convert h using 1
  have hs : Real.sqrt m.xi * Real.sqrt m.xi = m.xi := Real.mul_self_sqrt hxi
  have hc : Real.cosh (Real.sqrt m.xi * φ0) ≠ 0 := (Real.cosh_pos _).ne'
  simp only [potDeriv2_Tag0, Matrix.cons_val_zero, Matrix.cons_val_one, Matrix.head_cons,
    Matrix.cons_val_two, Matrix.tail_cons, Matrix.cons_val_three]
  generalize Real.sqrt m.xi = s at hs hc ⊢
  rw [← hs]
  field_simp
  ring


/-- The square root taken by the model at `xi = 4`. -/
theorem sqrt_four : Real.sqrt 4 = 2 := by
  rw [show (4 : ℝ) = 2 ^ 2 by norm_num]
  exact Real.sqrt_sq (by norm_num)

/-- The hyperbolic tangent is positive at positive arguments. -/
theorem tanh_pos_of_pos {x : ℝ} (hx : 0 < x) : 0 < Real.tanh x := by
  rw [Real.tanh_eq_sinh_div_cosh]
  exact div_pos (Real.sinh_pos_iff.mpr hx) (Real.cosh_pos x)

/-- The coded `potDeriv(Tag<0>)` at `xi = 4`, `Lambda = 1`, `g = 1`, `gz = 0` and fields
`(p, 1, 0, 0)`, relative to the analytic inflaton derivative. -/
theorem potDeriv_Tag0_at_model (p : ℝ) :
    potDeriv_Tag0 (construct 4 1 1 0) ![p, 1, 0, 0]
      = potDeriv_Tag0_analytic (construct 4 1 1 0) ![p, 1, 0, 0]
        + 4 * (Real.tanh (2 * p) / Real.cosh (2 * p) ^ 4
          * (Real.cosh (2 * (2 * p)) - Real.cosh (2 * p))) := by
  rw [potDeriv_Tag0_eq_analytic_add]
  simp only [construct, Matrix.cons_val_zero, Matrix.cons_val_one, Matrix.head_cons,
    Matrix.cons_val_two, Matrix.tail_cons, Matrix.cons_val_three, sqrt_four]
  norm_num

/-- The same at the field values `(1/8, 1, 0, 0)`. -/
theorem potDeriv_Tag0_at_input :
    potDeriv_Tag0 (construct 4 1 1 0) ![1 / 8, 1, 0, 0]
      = potDeriv_Tag0_analytic (construct 4 1 1 0) ![1 / 8, 1, 0, 0]
        + 4 * (Real.tanh (1 / 4) / Real.cosh (1 / 4) ^ 4
          * (Real.cosh (1 / 2) - Real.cosh (1 / 4))) := by
  rw [potDeriv_Tag0_at_model]
  norm_num

/-- C2 (evaluation of the code): at `xi = 4`, `Lambda = 1`, `g = 1`, `gz = 0` and fields
`(1/8, 1, 0, 0)` the sum of the four potential terms is differentiable in `phi0`, its
derivative is the analytic expression with `cosh(2*sharg)`, and the coded `potDeriv(Tag<0>)`,
which takes `cosh(2*fldS(0_c))`, is not that derivative. -/
theorem potDeriv_Tag0_not_inflaton_gradient :
    HasDerivAt (fun p => potential (construct 4 1 1 0) ![p, 1, 0, 0])
        (potDeriv_Tag0_analytic (construct 4 1 1 0) ![1 / 8, 1, 0, 0]) (1 / 8)
      ∧ ¬ HasDerivAt (fun p => potential (construct 4 1 1 0) ![p, 1, 0, 0])
        (potDeriv_Tag0 (construct 4 1 1 0) ![1 / 8, 1, 0, 0]) (1 / 8) := by
  have hL : (construct 4 1 1 0).Lambda ≠ 0 := by simp [construct]
  have ha := potential_hasDerivAt_analytic (construct 4 1 1 0) hL (1 / 8) 1 0 0
  refine ⟨ha, fun hcode => ?_⟩
  have heq := hcode.unique ha
  rw [potDeriv_Tag0_at_input] at heq
  have ht : 0 < Real.tanh (1 / 4) := tanh_pos_of_pos (by norm_num)
  have hc : 0 < Real.cosh (1 / 4) := Real.cosh_pos _
  have hlt : Real.cosh (1 / 4) < Real.cosh (1 / 2) := by
    rw [Real.cosh_lt_cosh]
    norm_num [abs_of_pos]
  have hpos : 0 < 4 * (Real.tanh (1 / 4) / Real.cosh (1 / 4) ^ 4
      * (Real.cosh (1 / 2) - Real.cosh (1 / 4))) := by
    have := sub_pos.mpr hlt
    positivity
  linarith

/-- C4: for `xi > 0`, `Lambda > 0` and all couplings and field values, the sum of the four
potential terms is differentiable in `phi0` everywhere, and its `phi0`-derivative is
differentiable at `phi0` with derivative `potDeriv2(Tag<0>)`: the coded `potDeriv2(Tag<0>)`
is the second partial derivative of the total potential. -/
theorem potDeriv2_Tag0_is_second_derivative (xi Lambda g gz φ0 φ1 φ2 φ3 : ℝ)
    (hxi : 0 < xi) (hL : 0 < Lambda) :
    (∀ p, DifferentiableAt ℝ (fun q => potential (construct xi Lambda g gz) ![q, φ1, φ2, φ3]) p)
      ∧ HasDerivAt (deriv (fun q => potential (construct xi Lambda g gz) ![q, φ1, φ2, φ3]))
        (potDeriv2_Tag0 (construct xi Lambda g gz) ![φ0, φ1, φ2, φ3]) φ0 := by
  have hL0 : (construct xi Lambda g gz).Lambda ≠ 0 := hL.ne'
  have hx0 : 0 ≤ (construct xi Lambda g gz).xi := hxi.le
  have h1 := potential_hasDerivAt_analytic (construct xi Lambda g gz) hL0
  refine ⟨fun p => (h1 p φ1 φ2 φ3).differentiableAt, ?_⟩
  have hfun : deriv (fun q => potential (construct xi Lambda g gz) ![q, φ1, φ2, φ3])
      = fun p => potDeriv_Tag0_analytic (construct xi Lambda g gz) ![p, φ1, φ2, φ3] := by
    funext p
    exact (h1 p φ1 φ2 φ3).deriv
  rw [hfun]
  exact analytic_hasDerivAt_potDeriv2 (construct xi Lambda g gz) hx0 hL0 φ0 φ1 φ2 φ3

/-- Witness for C4 at `xi = 4`, `Lambda = 1`, `g = 1`, `gz = 1` and fields `(1, 1, 1, 1)`. -/
theorem potDeriv2_Tag0_is_second_derivative_witness :
    ((0 : ℝ) < 4 ∧ (0 : ℝ) < 1)
      ∧ (∀ p, DifferentiableAt ℝ (fun q => potential (construct 4 1 1 1) ![q, 1, 1, 1]) p)
      ∧ HasDerivAt (deriv (fun q => potential (construct 4 1 1 1) ![q, 1, 1, 1]))
        (potDeriv2_Tag0 (construct 4 1 1 1) ![1, 1, 1, 1]) 1 :=
  ⟨⟨by norm_num, one_pos⟩,
    potDeriv2_Tag0_is_second_derivative 4 1 1 1 1 1 1 1 (by norm_num) one_pos⟩


/-- Derivative of the defect term of the coded `potDeriv(Tag<0>)` at `xi = 4`. -/
theorem defect_hasDerivAt (x : ℝ) :
    HasDerivAt (fun p => Real.tanh (2 * p) / Real.cosh (2 * p) ^ 4
        * (Real.cosh (2 * (2 * p)) - Real.cosh (2 * p)))
      (2 * ((1 - 4 * Real.sinh (2 * x) ^ 2) / Real.cosh (2 * x) ^ 6)
          * (Real.cosh (2 * (2 * x)) - Real.cosh (2 * x))
        + Real.tanh (2 * x) / Real.cosh (2 * x) ^ 4
          * (2 * (2 * Real.sinh (2 * (2 * x))) - 2 * Real.sinh (2 * x))) x := by
  have h1 := Hyperbolic.hasDerivAt_comp_mul 2 x
    (Hyperbolic.hasDerivAt_tanh_div_cosh_pow (2 * x))
  have h2 := Hyperbolic.hasDerivAt_comp_mul 2 x (Hyperbolic.hasDerivAt_cosh_two_mul (2 * x))
  exact h1.mul (h2.sub (Hyperbolic.hasDerivAt_cosh_two_mul x))

/-- Numeric bound: `sinh (1/4) < 1/2`. -/
theorem sinh_quarter_lt : Real.sinh (1 / 4) < 1 / 2 := by
  have hup : Real.exp (1 / 4) ≤ 1 / (1 - 1 / 4) :=
    Real.exp_bound_div_one_sub_of_interval (by norm_num) (by norm_num)
  have hlo : -(1 / 4 : ℝ) + 1 ≤ Real.exp (-(1 / 4)) := Real.add_one_le_exp _
  rw [Real.sinh_eq]
  norm_num at hup hlo ⊢
  linarith

/-- The derivative of the defect term is positive at `phi0 = 1/8`. -/
theorem defect_deriv_pos :
    0 < 2 * ((1 - 4 * Real.sinh (1 / 4) ^ 2) / Real.cosh (1 / 4) ^ 6)
          * (Real.cosh (1 / 2) - Real.cosh (1 / 4))
        + Real.tanh (1 / 4) / Real.cosh (1 / 4) ^ 4
          * (2 * (2 * Real.sinh (1 / 2)) - 2 * Real.sinh (1 / 4)) := by
  have ht : 0 < Real.tanh (1 / 4) := tanh_pos_of_pos (by norm_num)
  have hc : 0 < Real.cosh (1 / 4) := Real.cosh_pos _
  have hs0 : 0 < Real.sinh (1 / 4) := Real.sinh_pos_iff.mpr (by norm_num)
  have hs1 : Real.sinh (1 / 4) < Real.sinh (1 / 2) := Real.sinh_lt_sinh.mpr (by norm_num)
  have hlt : Real.cosh (1 / 4) < Real.cosh (1 / 2) := by
    rw [Real.cosh_lt_cosh]
    norm_num [abs_of_pos]
  have hsq : 0 < 1 - 4 * Real.sinh (1 / 4) ^ 2 := by
    nlinarith [sinh_quarter_lt]
  have hA : 0 < Real.cosh (1 / 2) - Real.cosh (1 / 4) := sub_pos.mpr hlt
  have hB : 0 < 2 * (2 * Real.sinh (1 / 2)) - 2 * Real.sinh (1 / 4) := by linarith
  positivity

/-- C5 (evaluation of the code): at `xi = 4`, `Lambda = 1`, `g = 1`, `gz = 0` and fields
`(1/8, 1, 0, 0)` the coded `potDeriv(Tag<0>)` is differentiable in `phi0` with a derivative
strictly above the coded `potDeriv2(Tag<0>)`; so `potDeriv2(Tag<0>)` is not the
`phi0`-derivative of `potDeriv(Tag<0>)` there. -/
theorem potDeriv_Tag0_deriv_ne_potDeriv2 :
    (∃ d, HasDerivAt (fun p => potDeriv_Tag0 (construct 4 1 1 0) ![p, 1, 0, 0]) d (1 / 8)
        ∧ potDeriv2_Tag0 (construct 4 1 1 0) ![1 / 8, 1, 0, 0] < d)
      ∧ ¬ HasDerivAt (fun p => potDeriv_Tag0 (construct 4 1 1 0) ![p, 1, 0, 0])
        (potDeriv2_Tag0 (construct 4 1 1 0) ![1 / 8, 1, 0, 0]) (1 / 8) := by
  have hL : (construct 4 1 1 0).Lambda ≠ 0 := by simp [construct]
  have hx : 0 ≤ (construct 4 1 1 0).xi := by simp [construct]
  have ha := analytic_hasDerivAt_potDeriv2 (construct 4 1 1 0) hx hL (1 / 8) 1 0 0
  have hd := (defect_hasDerivAt (1 / 8)).const_mul 4
  have hsum := ha.add hd
  have hfun : (fun p => potDeriv_Tag0 (construct 4 1 1 0) ![p, 1, 0, 0])
      = fun p => potDeriv_Tag0_analytic (construct 4 1 1 0) ![p, 1, 0, 0]
        + 4 * (Real.tanh (2 * p) / Real.cosh (2 * p) ^ 4
          * (Real.cosh (2 * (2 * p)) - Real.cosh (2 * p))) := by
    funext p
    exact potDeriv_Tag0_at_model p
  have hpos := defect_deriv_pos
  have hcode : HasDerivAt (fun p => potDeriv_Tag0 (construct 4 1 1 0) ![p, 1, 0, 0])
      (potDeriv2_Tag0 (construct 4 1 1 0) ![1 / 8, 1, 0, 0]
        + 4 * (2 * ((1 - 4 * Real.sinh (1 / 4) ^ 2) / Real.cosh (1 / 4) ^ 6)
            * (Real.cosh (1 / 2) - Real.cosh (1 / 4))
          + Real.tanh (1 / 4) / Real.cosh (1 / 4) ^ 4
            * (2 * (2 * Real.sinh (1 / 2)) - 2 * Real.sinh (1 / 4)))) (1 / 8) := by
    rw [hfun]
    convert hsum using 2
    norm_num
  refine ⟨⟨_, hcode, by linarith⟩, fun hbad => ?_⟩
  have := hbad.unique hcode
  linarith

end higgs_palatini_gauge_scalars

/-! ## Gauge model: the gauge directions and the zero-field baseline -/

namespace higgs_palatini_gauge_scalars

/-- C6: for `xi > 0`, `Lambda > 0` and all couplings and field values, the sum of the four
potential terms is differentiable in each of `phi1`, `phi2`, `phi3`, with derivative
`potDeriv(Tag<1>)`, `potDeriv(Tag<2>)`, `potDeriv(Tag<3>)` respectively (coupling `g^2` for
the first two and `gz^2` for the third). -/
theorem potential_hasDerivAt_gauge (xi Lambda g gz φ0 φ1 φ2 φ3 : ℝ)
    (_hxi : 0 < xi) (_hL : 0 < Lambda) :
    HasDerivAt (fun p => potential (construct xi Lambda g gz) ![φ0, p, φ2, φ3])
        (potDeriv_Tag1 (construct xi Lambda g gz) ![φ0, φ1, φ2, φ3]) φ1
      ∧ HasDerivAt (fun p => potential (construct xi Lambda g gz) ![φ0, φ1, p, φ3])
        (potDeriv_Tag2 (construct xi Lambda g gz) ![φ0, φ1, φ2, φ3]) φ2
      ∧ HasDerivAt (fun p => potential (construct xi Lambda g gz) ![φ0, φ1, φ2, p])
        (potDeriv_Tag3 (construct xi Lambda g gz) ![φ0, φ1, φ2, φ3]) φ3 := by
  simp only [potential, potentialTerms_Tag0, potentialTerms_Tag1, potentialTerms_Tag2,
    potentialTerms_Tag3, potDeriv_Tag1, potDeriv_Tag2, potDeriv_Tag3, construct,
    Matrix.cons_val_zero, Matrix.cons_val_one, Matrix.head_cons, Matrix.cons_val_two,
    Matrix.tail_cons, Matrix.cons_val_three]
  refine ⟨?_, ?_, ?_⟩
  · have h := ((((hasDerivAt_id φ1).pow 2).const_mul
      (0.5 * xi / Lambda * Real.tanh (Real.sqrt xi * φ0) ^ 2
        / Real.cosh (Real.sqrt xi * φ0) ^ 2 * g ^ 2)).const_add
      (Real.tanh (Real.sqrt xi * φ0) ^ 4)).add_const
      (0.5 * xi / Lambda * Real.tanh (Real.sqrt xi * φ0) ^ 2
          / Real.cosh (Real.sqrt xi * φ0) ^ 2 * g ^ 2 * φ2 ^ 2
        + 0.5 * xi / Lambda * Real.tanh (Real.sqrt xi * φ0) ^ 2
          / Real.cosh (Real.sqrt xi * φ0) ^ 2 * gz ^ 2 * φ3 ^ 2)
    convert h using 1
    · funext p
      simp only [id]
      ring
    · simp only [id]
      norm_num
      ring
  · have h := ((((hasDerivAt_id φ2).pow 2).const_mul
      (0.5 * xi / Lambda * Real.tanh (Real.sqrt xi * φ0) ^ 2
        / Real.cosh (Real.sqrt xi * φ0) ^ 2 * g ^ 2)).const_add
      (Real.tanh (Real.sqrt xi * φ0) ^ 4
        + 0.5 * xi / Lambda * Real.tanh (Real.sqrt xi * φ0) ^ 2
          / Real.cosh (Real.sqrt xi * φ0) ^ 2 * g ^ 2 * φ1 ^ 2)).add_const
      (0.5 * xi / Lambda * Real.tanh (Real.sqrt xi * φ0) ^ 2
          / Real.cosh (Real.sqrt xi * φ0) ^ 2 * gz ^ 2 * φ3 ^ 2)
    convert h using 1
    simp only [id]
    norm_num
    ring
  · have h := (((hasDerivAt_id φ3).pow 2).const_mul
      (0.5 * xi / Lambda * Real.tanh (Real.sqrt xi * φ0) ^ 2
        / Real.cosh (Real.sqrt xi * φ0) ^ 2 * gz ^ 2)).const_add
      (Real.tanh (Real.sqrt xi * φ0) ^ 4
        + 0.5 * xi / Lambda * Real.tanh (Real.sqrt xi * φ0) ^ 2
          / Real.cosh (Real.sqrt xi * φ0) ^ 2 * g ^ 2 * φ1 ^ 2
        + 0.5 * xi / Lambda * Real.tanh (Real.sqrt xi * φ0) ^ 2
          / Real.cosh (Real.sqrt xi * φ0) ^ 2 * g ^ 2 * φ2 ^ 2)
    convert h using 1
    simp only [id]
    norm_num
    ring


/-- Witness for C6 at `xi = 4`, `Lambda = 1`, `g = 1`, `gz = 1` and fields `(1, 1, 1, 1)`. -/
theorem potential_hasDerivAt_gauge_witness :
    ((0 : ℝ) < 4 ∧ (0 : ℝ) < 1)
      ∧ HasDerivAt (fun p => potential (construct 4 1 1 1) ![1, p, 1, 1])
        (potDeriv_Tag1 (construct 4 1 1 1) ![1, 1, 1, 1]) 1
      ∧ HasDerivAt (fun p => potential (construct 4 1 1 1) ![1, 1, p, 1])
        (potDeriv_Tag2 (construct 4 1 1 1) ![1, 1, 1, 1]) 1
      ∧ HasDerivAt (fun p => potential (construct 4 1 1 1) ![1, 1, 1, p])
        (potDeriv_Tag3 (construct 4 1 1 1) ![1, 1, 1, 1]) 1 :=
  ⟨⟨by norm_num, one_pos⟩, potential_hasDerivAt_gauge 4 1 1 1 1 1 1 1 (by norm_num) one_pos⟩

/-- C7: for each gauge direction `k = 1, 2, 3`, `potDeriv(Tag<k>)` is `phi_k` times
`potDeriv2(Tag<k>)`, `potDeriv2(Tag<k>)` takes the same value whatever `phi1`, `phi2`, `phi3`
are (it depends on `phi0` only), and `potDeriv(Tag<k>)` is differentiable in `phi_k` with
derivative `potDeriv2(Tag<k>)`. -/
theorem potDeriv_gauge_linear (xi Lambda g gz φ0 φ1 φ2 φ3 : ℝ)
    (_hxi : 0 < xi) (_hL : 0 < Lambda) :
    (potDeriv_Tag1 (construct xi Lambda g gz) ![φ0, φ1, φ2, φ3]
        = φ1 * potDeriv2_Tag1 (construct xi Lambda g gz) ![φ0, φ1, φ2, φ3]
      ∧ potDeriv_Tag2 (construct xi Lambda g gz) ![φ0, φ1, φ2, φ3]
        = φ2 * potDeriv2_Tag2 (construct xi Lambda g gz) ![φ0, φ1, φ2, φ3]
      ∧ potDeriv_Tag3 (construct xi Lambda g gz) ![φ0, φ1, φ2, φ3]
        = φ3 * potDeriv2_Tag3 (construct xi Lambda g gz) ![φ0, φ1, φ2, φ3])
    ∧ (∀ ψ1 ψ2 ψ3 : ℝ,
        potDeriv2_Tag1 (construct xi Lambda g gz) ![φ0, ψ1, ψ2, ψ3]
          = potDeriv2_Tag1 (construct xi Lambda g gz) ![φ0, φ1, φ2, φ3]
        ∧ potDeriv2_Tag2 (construct xi Lambda g gz) ![φ0, ψ1, ψ2, ψ3]
          = potDeriv2_Tag2 (construct xi Lambda g gz) ![φ0, φ1, φ2, φ3]
        ∧ potDeriv2_Tag3 (construct xi Lambda g gz) ![φ0, ψ1, ψ2, ψ3]
          = potDeriv2_Tag3 (construct xi Lambda g gz) ![φ0, φ1, φ2, φ3])
    ∧ (HasDerivAt (fun p => potDeriv_Tag1 (construct xi Lambda g gz) ![φ0, p, φ2, φ3])
          (potDeriv2_Tag1 (construct xi Lambda g gz) ![φ0, φ1, φ2, φ3]) φ1
      ∧ HasDerivAt (fun p => potDeriv_Tag2 (construct xi Lambda g gz) ![φ0, φ1, p, φ3])
          (potDeriv2_Tag2 (construct xi Lambda g gz) ![φ0, φ1, φ2, φ3]) φ2
      ∧ HasDerivAt (fun p => potDeriv_Tag3 (construct xi Lambda g gz) ![φ0, φ1, φ2, p])
          (potDeriv2_Tag3 (construct xi Lambda g gz) ![φ0, φ1, φ2, φ3]) φ3) := by
  refine ⟨⟨?_, ?_, ?_⟩, fun _ _ _ => ⟨rfl, rfl, rfl⟩, ?_, ?_, ?_⟩ <;>
    simp only [potDeriv_Tag1, potDeriv_Tag2, potDeriv_Tag3, potDeriv2_Tag1, potDeriv2_Tag2,
      potDeriv2_Tag3, construct, Matrix.cons_val_zero, Matrix.cons_val_one, Matrix.head_cons,
      Matrix.cons_val_two, Matrix.tail_cons, Matrix.cons_val_three]
  · ring
  · ring
  · ring
  · simpa using (hasDerivAt_id φ1).const_mul
      (xi / Lambda * Real.tanh (Real.sqrt xi * φ0) ^ 2
        / Real.cosh (Real.sqrt xi * φ0) ^ 2 * g * g)
  · simpa using (hasDerivAt_id φ2).const_mul
      (xi / Lambda * Real.tanh (Real.sqrt xi * φ0) ^ 2
        / Real.cosh (Real.sqrt xi * φ0) ^ 2 * g * g)
  · simpa using (hasDerivAt_id φ3).const_mul
      (xi / Lambda * Real.tanh (Real.sqrt xi * φ0) ^ 2
        / Real.cosh (Real.sqrt xi * φ0) ^ 2 * gz * gz)

/-- Witness for C7 at `xi = 4`, `Lambda = 1`, `g = 1`, `gz = 1` and fields `(1, 1, 1, 1)`. -/
theorem potDeriv_gauge_linear_witness :
    ((0 : ℝ) < 4 ∧ (0 : ℝ) < 1)
      ∧ potDeriv_Tag1 (construct 4 1 1 1) ![1, 1, 1, 1]
        = 1 * potDeriv2_Tag1 (construct 4 1 1 1) ![1, 1, 1, 1] :=
  ⟨⟨by norm_num, one_pos⟩,
    (potDeriv_gauge_linear 4 1 1 1 1 1 1 1 (by norm_num) one_pos).1.1⟩

end higgs_palatini_gauge_scalars

/-! ## Construction and rescaling -/

namespace higgs_palatini

/-- Without `initial_amplitudes` the constructor stops at its first read. -/
theorem MODELNAME_missing_amplitudes (parser : TempLat.ParameterParser)
    (h0 : parser.sequences "initial_amplitudes" = none) :
    MODELNAME parser
      = Except.error (TempLat.ConstructionError.MissingParameter "initial_amplitudes") := by
  simp only [TempLat.ParameterParser.get, MODELNAME, TempLat.ParameterParser.getSeq, h0]
  rfl

/-- With `initial_amplitudes` present and `xi` absent the constructor stops at the read of
`xi`. -/
theorem MODELNAME_missing_xi (parser : TempLat.ParameterParser) (fld0 : List ℝ)
    (h0 : parser.sequences "initial_amplitudes" = some fld0)
    (h1 : parser.scalars "xi" = none) :
    MODELNAME parser = Except.error (TempLat.ConstructionError.MissingParameter "xi") := by
  simp only [TempLat.ParameterParser.get, MODELNAME, TempLat.ParameterParser.get, TempLat.ParameterParser.getSeq,
    TempLat.ParameterParser.getSeqD, h0, h1]
  cases parser.sequences "initial_momenta" <;> rfl

end higgs_palatini

namespace higgs_palatini_gauge_scalars

/-- With `xi` absent the constructor stops at the read of `xi`. -/
theorem gauge_MODELNAME_missing_xi (parser : TempLat.ParameterParser)
    (h1 : parser.scalars "xi" = none) :
    MODELNAME parser = Except.error (TempLat.ConstructionError.MissingParameter "xi") := by
  simp only [TempLat.ParameterParser.get, MODELNAME, TempLat.ParameterParser.get, TempLat.ParameterParser.getSeqD, h1]
  cases parser.sequences "initial_amplitudes" <;>
    cases parser.sequences "initial_momenta" <;> rfl

end higgs_palatini_gauge_scalars

/-- C14 (counterexample): the empty parameter file lacks the key `xi`, and constructing the
single-field model from it fails with `MissingParameter("initial_amplitudes")`, the first key
read, not with `MissingParameter("xi")`. -/
theorem missing_xi_not_reported :
    TempLat.emptyFile.scalars "xi" = none
      ∧ higgs_palatini.MODELNAME TempLat.emptyFile
        = Except.error (TempLat.ConstructionError.MissingParameter "initial_amplitudes")
      ∧ higgs_palatini.MODELNAME TempLat.emptyFile
        ≠ Except.error (TempLat.ConstructionError.MissingParameter "xi") := by
  have h : higgs_palatini.MODELNAME TempLat.emptyFile
      = Except.error (TempLat.ConstructionError.MissingParameter "initial_amplitudes") := rfl
  refine ⟨rfl, h, ?_⟩
  rw [h]
  simp

/-- C14 (amended): for every parameter file lacking the key `xi`, constructing the gauge
model fails with `MissingParameter("xi")`; constructing the single-field model fails with
`MissingParameter("xi")` when `initial_amplitudes` is present and with
`MissingParameter("initial_amplitudes")` when it is absent; in each case no model object, and
so no `fStar`, `alpha`, `omegaStar`, is produced.  `Lambda` has no default value either: a
file lacking it yields no model object.  `initial_momenta` defaults to `{0}`. -/
theorem missing_xi_fails (parser : TempLat.ParameterParser)
    (hxi : parser.scalars "xi" = none) :
    higgs_palatini_gauge_scalars.MODELNAME parser
        = Except.error (TempLat.ConstructionError.MissingParameter "xi")
    ∧ (∀ fld0, parser.sequences "initial_amplitudes" = some fld0 →
        higgs_palatini.MODELNAME parser
          = Except.error (TempLat.ConstructionError.MissingParameter "xi"))
    ∧ (parser.sequences "initial_amplitudes" = none →
        higgs_palatini.MODELNAME parser
          = Except.error (TempLat.ConstructionError.MissingParameter "initial_amplitudes"))
    ∧ (∀ m, higgs_palatini.MODELNAME parser ≠ Except.ok m)
    ∧ (∀ m, higgs_palatini_gauge_scalars.MODELNAME parser ≠ Except.ok m)
    ∧ (∀ q : TempLat.ParameterParser, q.scalars "Lambda" = none →
        (∀ m, higgs_palatini.MODELNAME q ≠ Except.ok m)
          ∧ (∀ m, higgs_palatini_gauge_scalars.MODELNAME q ≠ Except.ok m))
    ∧ (∀ q : TempLat.ParameterParser, q.sequences "initial_momenta" = none →
        (∀ m, higgs_palatini.MODELNAME q = Except.ok m → m.piS0 = [0])
          ∧ (∀ m, higgs_palatini_gauge_scalars.MODELNAME q = Except.ok m → m.piS0 = [0])) := by
  have hg := higgs_palatini_gauge_scalars.gauge_MODELNAME_missing_xi parser hxi
  refine ⟨hg, fun fld0 h0 => higgs_palatini.MODELNAME_missing_xi parser fld0 h0 hxi,
    higgs_palatini.MODELNAME_missing_amplitudes parser, ?_, ?_, ?_, ?_⟩
  · intro m hm
    cases h0 : parser.sequences "initial_amplitudes" with
    | none =>
      rw [higgs_palatini.MODELNAME_missing_amplitudes parser h0] at hm
      cases hm
    | some fld0 =>
      rw [higgs_palatini.MODELNAME_missing_xi parser fld0 h0 hxi] at hm
      cases hm
  · intro m hm
    rw [hg] at hm
    cases hm
  · intro q hq
    constructor
    · intro m hm
      simp only [higgs_palatini.MODELNAME, TempLat.ParameterParser.get,
        TempLat.ParameterParser.getSeq, TempLat.ParameterParser.getSeqD, hq] at hm
      cases h0 : q.sequences "initial_amplitudes" <;>
        cases h1 : q.sequences "initial_momenta" <;>
        cases h2 : q.scalars "xi" <;>
        simp only [h0, h1, h2] at hm <;> cases hm
    · intro m hm
      simp only [higgs_palatini_gauge_scalars.MODELNAME, TempLat.ParameterParser.get,
        TempLat.ParameterParser.getSeqD, hq] at hm
      cases h0 : q.sequences "initial_amplitudes" <;>
        cases h1 : q.sequences "initial_momenta" <;>
        cases h2 : q.scalars "xi" <;>
        simp only [h0, h1, h2] at hm <;> cases hm
  · intro q hq
    constructor
    · intro m hm
      simp only [higgs_palatini.MODELNAME, TempLat.ParameterParser.get,
        TempLat.ParameterParser.getSeq, TempLat.ParameterParser.getSeqD, hq] at hm
      cases h0 : q.sequences "initial_amplitudes" <;>
        cases h2 : q.scalars "xi" <;>
        cases h3 : q.scalars "Lambda" <;>
        simp only [h0, h2, h3] at hm <;> cases hm
      all_goals rfl
    · intro m hm
      simp only [higgs_palatini_gauge_scalars.MODELNAME, TempLat.ParameterParser.get,
        TempLat.ParameterParser.getSeqD, hq] at hm
      cases h0 : q.sequences "initial_amplitudes" <;>
        cases h2 : q.scalars "xi" <;>
        cases h3 : q.scalars "Lambda" <;>
        cases h4 : q.scalars "g" <;>
        cases h5 : q.scalars "gz" <;>
        simp only [h0, h2, h3, h4, h5] at hm <;> cases hm
      all_goals rfl

/-- Witness for C14 (amended) at the empty parameter file. -/
theorem missing_xi_fails_witness :
    TempLat.emptyFile.scalars "xi" = none
      ∧ higgs_palatini_gauge_scalars.MODELNAME TempLat.emptyFile
        = Except.error (TempLat.ConstructionError.MissingParameter "xi") :=
  ⟨rfl, (missing_xi_fails TempLat.emptyFile rfl).1⟩

/-! ## Sign of the effective mass, envelope bounds, and reduction to the single field -/

namespace Hyperbolic

end Hyperbolic

namespace higgs_palatini

end higgs_palatini

namespace higgs_palatini_gauge_scalars

end higgs_palatini_gauge_scalars

namespace IEEE754

/-- Rounding half to even never goes below the floor. -/
theorem floor_le_roundHalfEven (y : ℝ) : ⌊y⌋ ≤ roundHalfEven y := by
  unfold roundHalfEven
  split_ifs <;> omega

/-- Rounding half to even never goes above the floor plus one. -/
theorem roundHalfEven_le_floor_add_one (y : ℝ) : roundHalfEven y ≤ ⌊y⌋ + 1 := by
  unfold roundHalfEven
  split_ifs <;> omega

/-- An integer is its own rounding. -/
theorem roundHalfEven_intCast (n : ℤ) : roundHalfEven (n : ℝ) = n := by
  unfold roundHalfEven
  rw [Int.fract_intCast, Int.floor_intCast]
  norm_num

/-- An integer below `y` stays below the rounding of `y`. -/
theorem le_roundHalfEven {n : ℤ} {y : ℝ} (h : (n : ℝ) ≤ y) : n ≤ roundHalfEven y :=
  le_trans (Int.le_floor.mpr h) (floor_le_roundHalfEven y)

/-- An integer above `y` stays above the rounding of `y`. -/
theorem roundHalfEven_le {n : ℤ} {y : ℝ} (h : y ≤ (n : ℝ)) : roundHalfEven y ≤ n := by
  unfold roundHalfEven
  have hfl : ⌊y⌋ ≤ n := by
    have h0 : (⌊y⌋ : ℝ) ≤ n := le_trans (Int.floor_le y) h
    exact_mod_cast h0
  by_cases h1 : Int.fract y < 1 / 2
  · simp only [h1, if_true]
    exact hfl
  · have hpos : 0 < Int.fract y := by linarith [not_lt.mp h1]
    have hlt : (⌊y⌋ : ℝ) < n := by
      have := Int.floor_add_fract y
      linarith
    have hlt2 : ⌊y⌋ < n := by exact_mod_cast hlt
    simp only [h1, if_false]
    split_ifs <;> omega

/-- Rounding half to even is monotone. -/
theorem roundHalfEven_mono {a b : ℝ} (h : a ≤ b) : roundHalfEven a ≤ roundHalfEven b := by
  have hfl : ⌊a⌋ ≤ ⌊b⌋ := Int.floor_le_floor h
  rcases lt_or_eq_of_le hfl with hlt | heq
  · calc roundHalfEven a ≤ ⌊a⌋ + 1 := roundHalfEven_le_floor_add_one a
      _ ≤ ⌊b⌋ := by omega
      _ ≤ roundHalfEven b := floor_le_roundHalfEven b
  · have hfr : Int.fract a ≤ Int.fract b := by
      have ha := Int.floor_add_fract a
      have hb := Int.floor_add_fract b
      have : (⌊a⌋ : ℝ) = ⌊b⌋ := by exact_mod_cast heq
      linarith
    unfold roundHalfEven
    rw [heq]
    split_ifs <;> first | omega | (exfalso; linarith)

/-- Rounding half to even commutes with negation. -/
theorem roundHalfEven_neg (y : ℝ) : roundHalfEven (-y) = -roundHalfEven y := by
  by_cases hint : Int.fract y = 0
  · have hy : y = (⌊y⌋ : ℝ) := by
      have := Int.floor_add_fract y
      linarith
    rw [hy, ← Int.cast_neg, roundHalfEven_intCast, roundHalfEven_intCast]
  · have hpos : 0 < Int.fract y := lt_of_le_of_ne (Int.fract_nonneg y) (Ne.symm hint)
    have hlt : Int.fract y < 1 := Int.fract_lt_one y
    have hfloor : ⌊-y⌋ = -⌊y⌋ - 1 := by
      rw [Int.floor_eq_iff]
      have := Int.floor_add_fract y
      push_cast
      constructor <;> linarith
    have hfract : Int.fract (-y) = 1 - Int.fract y := by
      have h1 := Int.floor_add_fract (-y)
      have h2 := Int.floor_add_fract y
      rw [hfloor] at h1
      push_cast at h1
      linarith
    unfold roundHalfEven
    rw [hfract, hfloor]
    have hpar : Even (-⌊y⌋ - 1) ↔ ¬ Even ⌊y⌋ := by
      rw [Int.even_sub, even_neg]
      simp
    split_ifs <;> first | omega | (exfalso; linarith) | (exfalso; tauto)

end IEEE754

namespace IEEE754

/-- The spacing is positive. -/
theorem ulp_pos (x : ℝ) : 0 < ulp x := zpow_pos (by norm_num) _

/-- The binade does not see the sign. -/
theorem binade_neg (x : ℝ) : binade (-x) = binade x := by
  unfold binade
  rw [abs_neg]

/-- The spacing does not see the sign. -/
theorem ulp_neg (x : ℝ) : ulp (-x) = ulp x := by
  unfold ulp
  rw [binade_neg]

/-- The binade is at least `-1022`. -/
theorem le_binade (x : ℝ) : -1022 ≤ binade x := le_max_right _ _

/-- Every real lies below the upper end of its binade. -/
theorem abs_lt_zpow_binade_succ (x : ℝ) : |x| < (2 : ℝ) ^ (binade x + 1) := by
  have h1 : |x| < ((2 : ℕ) : ℝ) ^ (Int.log 2 |x| + 1) :=
    Int.lt_zpow_succ_log_self (by norm_num) |x|
  have h2 : ((2 : ℕ) : ℝ) ^ (Int.log 2 |x| + 1) ≤ (2 : ℝ) ^ (binade x + 1) := by
    rw [Nat.cast_ofNat]
    apply zpow_le_zpow_right₀ (by norm_num)
    have := le_max_left (Int.log 2 |x|) (-1022)
    unfold binade
    omega
  exact lt_of_lt_of_le h1 h2

/-- Above the subnormal range the binade is the floor of the binary logarithm. -/
theorem binade_eq_log {x : ℝ} (h : -1022 < binade x) : binade x = Int.log 2 |x| := by
  unfold binade at h ⊢
  rcases le_total (Int.log 2 |x|) (-1022) with h1 | h1
  · rw [max_eq_right h1] at h
    omega
  · exact max_eq_left h1

/-- Above the subnormal range a positive real lies above the lower end of its binade. -/
theorem zpow_binade_le {x : ℝ} (hx : 0 < x) (h : -1022 < binade x) :
    (2 : ℝ) ^ binade x ≤ x := by
  rw [binade_eq_log h, abs_of_pos hx]
  have := Int.zpow_log_le_self (b := 2) (by norm_num) hx
  rwa [Nat.cast_ofNat] at this

/-- The binade grows with the magnitude. -/
theorem binade_mono {x y : ℝ} (hx : 0 < x) (h : x ≤ y) : binade x ≤ binade y := by
  unfold binade
  rw [abs_of_pos hx, abs_of_pos (lt_of_lt_of_le hx h)]
  exact max_le_max (Int.log_mono_right hx h) le_rfl

/-- Rounding to nearest commutes with negation. -/
theorem roundNearest_neg (x : ℝ) : roundNearest (-x) = -roundNearest x := by
  unfold roundNearest
  rw [ulp_neg, neg_div, roundHalfEven_neg]
  push_cast
  ring

/-- Zero rounds to zero. -/
theorem roundNearest_zero : roundNearest 0 = 0 := by
  unfold roundNearest
  rw [zero_div]
  have : roundHalfEven 0 = 0 := by
    have := roundHalfEven_intCast 0
    simpa using this
  rw [this]
  simp

/-- A non-negative real rounds to a non-negative double. -/
theorem roundNearest_nonneg {x : ℝ} (hx : 0 ≤ x) : 0 ≤ roundNearest x := by
  unfold roundNearest
  have h0 : ((0 : ℤ) : ℝ) ≤ x / ulp x := by
    simpa using div_nonneg hx (ulp_pos x).le
  have h1 : (0 : ℤ) ≤ roundHalfEven (x / ulp x) := le_roundHalfEven h0
  have h2 : (0 : ℝ) ≤ (roundHalfEven (x / ulp x) : ℝ) := by exact_mod_cast h1
  exact mul_nonneg h2 (ulp_pos x).le

/-- A positive real rounds to at most the upper end of its binade. -/
theorem roundNearest_le_zpow_binade_succ {x : ℝ} (hx : 0 ≤ x) :
    roundNearest x ≤ (2 : ℝ) ^ (binade x + 1) := by
  unfold roundNearest
  have hu := ulp_pos x
  have hlt := abs_lt_zpow_binade_succ x
  rw [abs_of_nonneg hx] at hlt
  have hsplit : (2 : ℝ) ^ (binade x + 1) = (((2 : ℤ) ^ 53 : ℤ) : ℝ) * ulp x := by
    have hc : (((2 : ℤ) ^ 53 : ℤ) : ℝ) = (2 : ℝ) ^ (53 : ℤ) := by norm_num
    unfold ulp
    rw [hc, ← zpow_add₀ (by norm_num : (2 : ℝ) ≠ 0)]
    congr 1
    ring
  have h1 : x / ulp x ≤ (((2 : ℤ) ^ 53 : ℤ) : ℝ) := by
    rw [div_le_iff₀ hu, ← hsplit]
    exact hlt.le
  have h2 : roundHalfEven (x / ulp x) ≤ (2 : ℤ) ^ 53 := roundHalfEven_le h1
  have h3 : (roundHalfEven (x / ulp x) : ℝ) ≤ (((2 : ℤ) ^ 53 : ℤ) : ℝ) := by exact_mod_cast h2
  rw [hsplit]
  exact mul_le_mul_of_nonneg_right h3 hu.le

/-- Above the subnormal range a positive real rounds to at least the lower end of its
binade. -/
theorem zpow_binade_le_roundNearest {x : ℝ} (hx : 0 < x) (h : -1022 < binade x) :
    (2 : ℝ) ^ binade x ≤ roundNearest x := by
  unfold roundNearest
  have hu := ulp_pos x
  have hle := zpow_binade_le hx h
  have hsplit : (2 : ℝ) ^ binade x = (((2 : ℤ) ^ 52 : ℤ) : ℝ) * ulp x := by
    have hc : (((2 : ℤ) ^ 52 : ℤ) : ℝ) = (2 : ℝ) ^ (52 : ℤ) := by norm_num
    unfold ulp
    rw [hc, ← zpow_add₀ (by norm_num : (2 : ℝ) ≠ 0)]
    congr 1
    ring
  have h1 : (((2 : ℤ) ^ 52 : ℤ) : ℝ) ≤ x / ulp x := by
    rw [le_div_iff₀ hu, ← hsplit]
    exact hle
  have h2 : (2 : ℤ) ^ 52 ≤ roundHalfEven (x / ulp x) := le_roundHalfEven h1
  have h3 : (((2 : ℤ) ^ 52 : ℤ) : ℝ) ≤ (roundHalfEven (x / ulp x) : ℝ) := by exact_mod_cast h2
  rw [hsplit]
  exact mul_le_mul_of_nonneg_right h3 hu.le

/-- Rounding to nearest is monotone on the non-negative reals. -/
theorem roundNearest_mono_nonneg {x y : ℝ} (hx : 0 ≤ x) (h : x ≤ y) :
    roundNearest x ≤ roundNearest y := by
  rcases eq_or_lt_of_le hx with h0 | hpos
  · rw [← h0, roundNearest_zero]
    exact roundNearest_nonneg (le_trans hx h)
  · have hb := binade_mono hpos h
    rcases eq_or_lt_of_le hb with heq | hlt
    · have hu : ulp x = ulp y := by
        unfold ulp
        rw [heq]
      unfold roundNearest
      rw [hu]
      have h1 : x / ulp y ≤ y / ulp y := div_le_div_of_nonneg_right h (ulp_pos y).le
      have h2 : (roundHalfEven (x / ulp y) : ℝ) ≤ (roundHalfEven (y / ulp y) : ℝ) := by
        exact_mod_cast roundHalfEven_mono h1
      exact mul_le_mul_of_nonneg_right h2 (ulp_pos y).le
    · have hy : 0 < y := lt_of_lt_of_le hpos h
      have hby : -1022 < binade y := lt_of_le_of_lt (le_binade x) hlt
      calc roundNearest x ≤ (2 : ℝ) ^ (binade x + 1) := roundNearest_le_zpow_binade_succ hx
        _ ≤ (2 : ℝ) ^ binade y := zpow_le_zpow_right₀ (by norm_num) (by omega)
        _ ≤ roundNearest y := zpow_binade_le_roundNearest hy hby

/-- The magnitude of the rounding is the rounding of the magnitude. -/
theorem abs_roundNearest (x : ℝ) : |roundNearest x| = roundNearest |x| := by
  rcases le_total 0 x with h | h
  · rw [abs_of_nonneg h, abs_of_nonneg (roundNearest_nonneg h)]
  · have h1 : 0 ≤ -x := by linarith
    have h2 := roundNearest_nonneg h1
    rw [roundNearest_neg] at h2
    rw [abs_of_nonpos h, abs_of_nonpos (by linarith), roundNearest_neg]

/-- A real of the form `m * 2 ^ k` with a 53-bit significand `m` and `k ≥ -1074` is a double:
it rounds to itself. -/
theorem roundNearest_eq_self (m k : ℤ) (hm : |m| < 2 ^ 53) (hk : -1074 ≤ k) :
    roundNearest ((m : ℝ) * (2 : ℝ) ^ k) = (m : ℝ) * (2 : ℝ) ^ k := by
  rcases eq_or_ne m 0 with h0 | h0
  · rw [h0]
    simp [roundNearest_zero]
  · set x : ℝ := (m : ℝ) * (2 : ℝ) ^ k with hxdef
    have h2k : (0 : ℝ) < (2 : ℝ) ^ k := zpow_pos (by norm_num) _
    have hmR : (m : ℝ) ≠ 0 := by exact_mod_cast h0
    have hxpos : 0 < |x| := abs_pos.mpr (mul_ne_zero hmR h2k.ne')
    have hmabs : |(m : ℝ)| < (2 : ℝ) ^ (53 : ℤ) := by
      have h : ((|m| : ℤ) : ℝ) < (((2 : ℤ) ^ 53 : ℤ) : ℝ) := by exact_mod_cast hm
      rw [Int.cast_abs] at h
      norm_num at h ⊢
      exact h
    have hxlt : |x| < ((2 : ℕ) : ℝ) ^ (k + 53) := by
      rw [Nat.cast_ofNat, hxdef, abs_mul, abs_of_pos h2k,
        zpow_add₀ (by norm_num : (2 : ℝ) ≠ 0), mul_comm]
      exact mul_lt_mul_of_pos_left hmabs h2k
    have hlog : Int.log 2 |x| < k + 53 := (Int.lt_zpow_iff_log_lt (by norm_num) hxpos).mp hxlt
    have hb : binade x - 52 ≤ k := by
      have : binade x ≤ k + 52 := by
        unfold binade
        exact max_le (by omega) (by omega)
      omega
    obtain ⟨j, hj⟩ : ∃ j : ℕ, k = (binade x - 52) + (j : ℤ) :=
      ⟨(k - (binade x - 52)).toNat, by rw [Int.toNat_of_nonneg (by omega)]; ring⟩
    have hpow : (2 : ℝ) ^ k = (2 : ℝ) ^ (j : ℕ) * ulp x := by
      unfold ulp
      rw [← zpow_natCast (2 : ℝ) j, ← zpow_add₀ (by norm_num : (2 : ℝ) ≠ 0)]
      congr 1
      omega
    have hdiv : x / ulp x = ((m * 2 ^ j : ℤ) : ℝ) := by
      rw [div_eq_iff (ulp_pos x).ne']
      calc x = (m : ℝ) * ((2 : ℝ) ^ (j : ℕ) * ulp x) := by rw [← hpow]
        _ = ((m * 2 ^ j : ℤ) : ℝ) * ulp x := by
          push_cast
          ring
    unfold roundNearest
    rw [hdiv, roundHalfEven_intCast, ← hdiv]
    exact div_mul_cancel₀ x (ulp_pos x).ne'

/-- An integer of magnitude below `2 ^ 53` is a double. -/
theorem roundNearest_intCast (n : ℤ) (hn : |n| < 2 ^ 53) : roundNearest (n : ℝ) = n := by
  have := roundNearest_eq_self n 0 hn (by norm_num)
  simpa using this

/-- A power of two from `2 ^ (-1074)` up is a double. -/
theorem roundNearest_zpow (k : ℤ) (hk : -1074 ≤ k) :
    roundNearest ((2 : ℝ) ^ k) = (2 : ℝ) ^ k := by
  have := roundNearest_eq_self 1 k (by norm_num) hk
  simpa using this

/-- Rounding keeps a bound by a power of two. -/
theorem abs_roundNearest_le {x : ℝ} {k : ℤ} (hk : -1074 ≤ k) (h : |x| ≤ (2 : ℝ) ^ k) :
    |roundNearest x| ≤ (2 : ℝ) ^ k := by
  rw [abs_roundNearest, ← roundNearest_zpow k hk]
  exact roundNearest_mono_nonneg (abs_nonneg x) h

/-- Rounding keeps a lower bound by a power of two. -/
theorem le_roundNearest {x : ℝ} {k : ℤ} (hk : -1074 ≤ k) (h : (2 : ℝ) ^ k ≤ x) :
    (2 : ℝ) ^ k ≤ roundNearest x := by
  rw [← roundNearest_zpow k hk]
  exact roundNearest_mono_nonneg (zpow_pos (by norm_num) _).le h

end IEEE754

namespace IEEE754

/-- A real within half a unit below an integer rounds to that integer. -/
theorem roundHalfEven_of_near {n : ℤ} {y : ℝ} (h1 : (n : ℝ) - 1 / 2 < y) (h2 : y ≤ n) :
    roundHalfEven y = n := by
  rcases eq_or_lt_of_le h2 with heq | hlt
  · rw [heq, roundHalfEven_intCast]
  · have hfloor : ⌊y⌋ = n - 1 := by
      rw [Int.floor_eq_iff]
      push_cast
      constructor <;> linarith
    have hfract : Int.fract y = y - ((n : ℝ) - 1) := by
      have := Int.floor_add_fract y
      rw [hfloor] at this
      push_cast at this
      linarith
    unfold roundHalfEven
    rw [hfract, hfloor]
    have h3 : ¬ (y - ((n : ℝ) - 1) < 1 / 2) := by linarith
    have h4 : 1 / 2 < y - ((n : ℝ) - 1) := by linarith
    simp only [h3, h4, if_false, if_true]
    ring

/-- The binade of a real in `[1/2, 1)`. -/
theorem binade_of_half_le {x : ℝ} (h1 : 1 / 2 ≤ x) (h2 : x < 1) : binade x = -1 := by
  have hx : 0 < x := by linarith
  have hlo : (-1 : ℤ) ≤ Int.log 2 |x| := by
    rw [← Int.zpow_le_iff_le_log (by norm_num) (abs_pos.mpr hx.ne'), abs_of_pos hx]
    norm_num
    linarith
  have hhi : Int.log 2 |x| < 0 := by
    rw [← Int.lt_zpow_iff_log_lt (by norm_num) (abs_pos.mpr hx.ne'), abs_of_pos hx]
    simpa using h2
  unfold binade
  rw [max_eq_left (by omega)]
  omega

/-- A real less than `2 ^ (-54)` below one rounds to the double one. -/
theorem roundNearest_near_one {x : ℝ} (h1 : 1 - (2 : ℝ) ^ (-54 : ℤ) < x) (h2 : x < 1) :
    roundNearest x = 1 := by
  have e54 : (2 : ℝ) ^ (-54 : ℤ) = 1 / 18014398509481984 := by norm_num
  have e53 : (2 : ℝ) ^ (-53 : ℤ) = 1 / 9007199254740992 := by norm_num
  rw [e54] at h1
  have hb : binade x = -1 := binade_of_half_le (by linarith) h2
  have hu : ulp x = 1 / 9007199254740992 := by
    unfold ulp
    rw [hb, ← e53]
    norm_num
  have hmul : x / (1 / 9007199254740992) = x * 9007199254740992 := by ring
  have hr : roundHalfEven (x / (1 / 9007199254740992)) = (2 : ℤ) ^ 53 := by
    apply roundHalfEven_of_near
    · rw [hmul]
      push_cast
      linarith
    · rw [hmul]
      push_cast
      linarith
  unfold roundNearest
  rw [hu, hr]
  push_cast
  norm_num

/-- A real less than `2 ^ (-54)` above minus one rounds to the double minus one. -/
theorem roundNearest_near_neg_one {x : ℝ} (h1 : -1 < x) (h2 : x < -1 + (2 : ℝ) ^ (-54 : ℤ)) :
    roundNearest x = -1 := by
  have e54 : (2 : ℝ) ^ (-54 : ℤ) = 1 / 18014398509481984 := by norm_num
  rw [e54] at h2
  have h := roundNearest_near_one (x := -x) (by rw [e54]; linarith) (by linarith)
  rw [roundNearest_neg] at h
  linarith

/-- An operation whose exact value is bounded by a power of two below `2 ^ 1024` returns a
finite double with the same bound. -/
theorem ofReal_of_abs_le {x : ℝ} {k : ℤ} (hk : -1074 ≤ k) (hk2 : k < 1024)
    (h : |x| ≤ (2 : ℝ) ^ k) :
    Double.ofReal x = Double.fin (roundNearest x) ∧ |roundNearest x| ≤ (2 : ℝ) ^ k := by
  have hb := abs_roundNearest_le hk h
  have hlt : (2 : ℝ) ^ k < (2 : ℝ) ^ (1024 : ℤ) := zpow_lt_zpow_right₀ (by norm_num) hk2
  have habs := abs_le.mp hb
  refine ⟨?_, hb⟩
  unfold Double.ofReal
  rw [if_neg (by linarith [habs.2]), if_neg (by linarith [habs.1])]

/-- An operation whose exact value is a double below `2 ^ 1024` in magnitude returns it. -/
theorem ofReal_eq_self (m k : ℤ) (hm : |m| < 2 ^ 53) (hk : -1074 ≤ k) (hk2 : k + 53 ≤ 1024) :
    Double.ofReal ((m : ℝ) * (2 : ℝ) ^ k) = Double.fin ((m : ℝ) * (2 : ℝ) ^ k) := by
  have h2k : (0 : ℝ) < (2 : ℝ) ^ k := zpow_pos (by norm_num) _
  have hmabs : |(m : ℝ)| < (2 : ℝ) ^ (53 : ℤ) := by
    have h : ((|m| : ℤ) : ℝ) < (((2 : ℤ) ^ 53 : ℤ) : ℝ) := by exact_mod_cast hm
    rw [Int.cast_abs] at h
    norm_num at h ⊢
    exact h
  have hlt : |(m : ℝ) * (2 : ℝ) ^ k| < (2 : ℝ) ^ (1024 : ℤ) := by
    rw [abs_mul, abs_of_pos h2k]
    calc |(m : ℝ)| * (2 : ℝ) ^ k < (2 : ℝ) ^ (53 : ℤ) * (2 : ℝ) ^ k :=
          mul_lt_mul_of_pos_right hmabs h2k
      _ = (2 : ℝ) ^ (53 + k) := (zpow_add₀ (by norm_num) _ _).symm
      _ ≤ (2 : ℝ) ^ (1024 : ℤ) := zpow_le_zpow_right₀ (by norm_num) (by omega)
  have habs := abs_lt.mp hlt
  unfold Double.ofReal
  rw [roundNearest_eq_self m k hm hk, if_neg (by linarith [habs.2]),
    if_neg (by linarith [habs.1])]

/-- An operation whose exact value is an integer below `2 ^ 53` in magnitude returns it. -/
theorem ofReal_intCast (n : ℤ) (hn : |n| < 2 ^ 53) :
    Double.ofReal (n : ℝ) = Double.fin (n : ℝ) := by
  have := ofReal_eq_self n 0 hn (by norm_num) (by norm_num)
  simpa using this

/-- An operation whose exact value reaches `2 ^ 1024` overflows to `+inf`. -/
theorem ofReal_eq_pinf {x : ℝ} (h : (2 : ℝ) ^ (1024 : ℤ) ≤ x) : Double.ofReal x = Double.pinf := by
  unfold Double.ofReal
  rw [if_pos (le_roundNearest (by norm_num) h)]

/-- An operation whose exact value is at least a power of two returns `+inf` or a finite
double with the same lower bound. -/
theorem ofReal_of_le {x : ℝ} {k : ℤ} (hk : -1074 ≤ k) (h : (2 : ℝ) ^ k ≤ x) :
    Double.ofReal x = Double.pinf
      ∨ (Double.ofReal x = Double.fin (roundNearest x) ∧ (2 : ℝ) ^ k ≤ roundNearest x) := by
  have hb := le_roundNearest hk h
  have hpos : (0 : ℝ) < (2 : ℝ) ^ k := zpow_pos (by norm_num) _
  unfold Double.ofReal
  by_cases h1 : (2 : ℝ) ^ (1024 : ℤ) ≤ roundNearest x
  · exact Or.inl (if_pos h1)
  · refine Or.inr ⟨?_, hb⟩
    have h1024 : (0 : ℝ) < (2 : ℝ) ^ (1024 : ℤ) := zpow_pos (by norm_num) _
    rw [if_neg h1, if_neg (by linarith)]

end IEEE754

namespace Hyperbolic

/-- Lower bound of the exponential at a natural number by a power of a rational below `e`. -/
theorem pow_le_exp {c : ℝ} (hc0 : 0 ≤ c) (hc : c ≤ Real.exp 1) (n : ℕ) {x : ℝ}
    (hx : (n : ℝ) ≤ x) : c ^ n ≤ Real.exp x := by
  have h1 : c ^ n ≤ Real.exp 1 ^ n := pow_le_pow_left₀ hc0 hc n
  have h2 : Real.exp 1 ^ n = Real.exp (n : ℝ) := by
    rw [← Real.exp_nat_mul, mul_one]
  rw [h2] at h1
  exact le_trans h1 (Real.exp_le_exp.mpr hx)

/-- Two and a half is below `e`. -/
theorem five_halves_le_exp_one : (5 / 2 : ℝ) ≤ Real.exp 1 := by
  have := Real.exp_one_gt_d9
  linarith

/-- `2.718` is below `e`. -/
theorem e_lower : (2.718 : ℝ) ≤ Real.exp 1 := by
  have := Real.exp_one_gt_d9
  linarith

/-- Half the exponential of the magnitude bounds the hyperbolic cosine from below. -/
theorem half_exp_le_cosh (x : ℝ) : Real.exp |x| / 2 ≤ Real.cosh x := by
  rw [← Real.cosh_abs x, Real.cosh_eq]
  have := Real.exp_pos (-|x|)
  linarith

/-- From argument 20 on, the hyperbolic tangent is within `2 ^ (-54)` of one. -/
theorem tanh_near_one {x : ℝ} (hx : 20 ≤ x) :
    1 - (2 : ℝ) ^ (-54 : ℤ) < Real.tanh x ∧ Real.tanh x < 1 := by
  have hexp : (2.718 : ℝ) ^ 40 ≤ Real.exp (2 * x) :=
    pow_le_exp (by norm_num) e_lower 40 (by push_cast; linarith)
  have hbig : (2 : ℝ) ^ 55 < Real.exp (2 * x) + 1 := by
    have : (2 : ℝ) ^ 55 < (2.718 : ℝ) ^ 40 := by norm_num
    linarith
  have hden : 0 < Real.exp (2 * x) + 1 := by positivity
  rw [tanh_eq_one_sub]
  constructor
  · have h54 : (2 : ℝ) ^ (-54 : ℤ) = 2 / (2 : ℝ) ^ 55 := by
      rw [zpow_neg, show (54 : ℤ) = ((54 : ℕ) : ℤ) by norm_num, zpow_natCast]
      norm_num
    rw [h54]
    have : 2 / (Real.exp (2 * x) + 1) < 2 / (2 : ℝ) ^ 55 :=
      div_lt_div_of_pos_left (by norm_num) (by positivity) hbig
    linarith
  · have : 0 < 2 / (Real.exp (2 * x) + 1) := by positivity
    linarith

end Hyperbolic

/-! ## Double-precision operations -/

namespace IEEE754

/-- The result of an operation is never NaN when its exact value is a real number. -/
theorem ofReal_ne_nan (x : ℝ) : Double.ofReal x ≠ Double.nan := by
  unfold Double.ofReal
  split_ifs <;> simp

/-- An operation with exact value zero returns zero. -/
theorem ofReal_zero : Double.ofReal 0 = Double.fin 0 := by
  have := ofReal_intCast 0 (by norm_num)
  simpa using this

/-- An operation with exact value one returns one. -/
theorem ofReal_one : Double.ofReal 1 = Double.fin 1 := by
  have := ofReal_intCast 1 (by norm_num)
  simpa using this

/-- An operation whose exact value has magnitude at least an integer below `2 ^ 53` returns a
double of at least that magnitude. -/
theorem ofReal_absGe {x : ℝ} (n : ℤ) (hn0 : 0 ≤ n) (hn : |n| < 2 ^ 53) (h : (n : ℝ) ≤ |x|) :
    (Double.ofReal x).absGe n := by
  have h0 : (0 : ℝ) ≤ (n : ℝ) := by exact_mod_cast hn0
  have hr : (n : ℝ) ≤ |roundNearest x| := by
    rw [abs_roundNearest, ← roundNearest_intCast n hn]
    exact roundNearest_mono_nonneg h0 h
  unfold Double.ofReal
  split_ifs
  · trivial
  · trivial
  · exact hr

/-- The square root of a non-negative finite double is a finite double of at most `2 ^ 512`. -/
theorem sqrt_fin {x : ℝ} (h0 : 0 ≤ x) (h1 : x < (2 : ℝ) ^ (1024 : ℤ)) :
    Double.sqrt (Double.fin x) = Double.fin (roundNearest (Real.sqrt x))
      ∧ 0 ≤ roundNearest (Real.sqrt x)
      ∧ roundNearest (Real.sqrt x) ≤ (2 : ℝ) ^ (512 : ℤ) := by
  have hsq : ((2 : ℝ) ^ (512 : ℤ)) ^ 2 = (2 : ℝ) ^ (1024 : ℤ) := by
    rw [← zpow_natCast, ← zpow_mul]
    norm_num
  have hle : Real.sqrt x ≤ (2 : ℝ) ^ (512 : ℤ) := by
    rw [Real.sqrt_le_iff]
    exact ⟨(zpow_pos (by norm_num) _).le, by rw [hsq]; exact h1.le⟩
  have habs : |Real.sqrt x| ≤ (2 : ℝ) ^ (512 : ℤ) := by
    rw [abs_of_nonneg (Real.sqrt_nonneg x)]
    exact hle
  have h := ofReal_of_abs_le (by norm_num) (by norm_num) habs
  refine ⟨?_, roundNearest_nonneg (Real.sqrt_nonneg x), (abs_le.mp h.2).2⟩
  unfold Double.sqrt
  simp only
  rw [if_neg (not_lt.mpr h0)]
  exact h.1

/-- The hyperbolic tangent of a double that is not NaN is a finite double in `[-1, 1]`. -/
theorem tanh_bounded {d : Double} (hd : d ≠ Double.nan) :
    ∃ t, Double.tanh d = Double.fin t ∧ |t| ≤ 1 := by
  cases d with
  | fin a =>
    have hlt : |Real.tanh a| ≤ (2 : ℝ) ^ (0 : ℤ) := by
      have h := Hyperbolic.tanh_sq_lt_one a
      have h2 : |Real.tanh a| < 1 := by
        rw [← sq_lt_one_iff_abs_lt_one]
        exact h
      simpa using h2.le
    have h := ofReal_of_abs_le (by norm_num) (by norm_num) hlt
    exact ⟨_, h.1, by simpa using h.2⟩
  | pinf => exact ⟨1, rfl, by norm_num⟩
  | ninf => exact ⟨-1, rfl, by norm_num⟩
  | nan => exact absurd rfl hd

/-- A power of a finite double in `[-1, 1]` is a finite double in `[-1, 1]`, non-negative when
the exact power is. -/
theorem pow_bounded {t : ℝ} (ht : |t| ≤ 1) (n : ℕ) :
    ∃ v, Double.pow (Double.fin t) n = Double.fin v ∧ |v| ≤ 1 ∧ (0 ≤ t ^ n → 0 ≤ v) := by
  have hlt : |t ^ n| ≤ (2 : ℝ) ^ (0 : ℤ) := by
    rw [abs_pow]
    simpa using pow_le_one₀ (abs_nonneg t) ht
  have h := ofReal_of_abs_le (by norm_num) (by norm_num) hlt
  exact ⟨_, h.1, by simpa using h.2, fun h0 => roundNearest_nonneg h0⟩

/-- From magnitude 20 on, the hyperbolic tangent returns exactly one or minus one. -/
theorem tanh_of_absGe {d : Double} (hd : d.absGe 20) :
    Double.tanh d = Double.fin 1 ∨ Double.tanh d = Double.fin (-1) := by
  have h1024 : (1 : ℝ) < (2 : ℝ) ^ (1024 : ℤ) := by
    have : (2 : ℝ) ^ (0 : ℤ) < (2 : ℝ) ^ (1024 : ℤ) :=
      zpow_lt_zpow_right₀ (by norm_num) (by norm_num)
    simpa using this
  cases d with
  | fin a =>
    have ha : (20 : ℝ) ≤ |a| := hd
    rcases le_abs'.mp ha with hneg | hpos
    · right
      have h := Hyperbolic.tanh_near_one (x := -a) (by linarith)
      rw [Real.tanh_neg] at h
      have hr := roundNearest_near_neg_one (x := Real.tanh a) (by linarith [h.2])
        (by linarith [h.1])
      unfold Double.tanh Double.ofReal
      simp only [hr]
      rw [if_neg (by linarith), if_neg (by linarith)]
    · left
      have h := Hyperbolic.tanh_near_one hpos
      have hr := roundNearest_near_one h.1 h.2
      unfold Double.tanh Double.ofReal
      simp only [hr]
      rw [if_neg (by linarith), if_neg (by linarith)]
  | pinf => exact Or.inl rfl
  | ninf => exact Or.inr rfl
  | nan => exact absurd hd (by simp [Double.absGe])

end IEEE754

/-! ## Single-field model in double precision: boundedness and saturation -/

namespace higgs_palatini

open IEEE754

/-- The member `sqrtxi` stored by the constructor, for a finite `xi ≥ 0`. -/
theorem binary64_sqrtxi {xi : ℝ} (Lambda : ℝ) (h0 : 0 ≤ xi) (h1 : xi < (2 : ℝ) ^ (1024 : ℤ)) :
    (binary64.construct (Double.fin xi) (Double.fin Lambda)).sqrtxi
        = Double.fin (roundNearest (Real.sqrt xi))
      ∧ 0 ≤ roundNearest (Real.sqrt xi)
      ∧ roundNearest (Real.sqrt xi) ≤ (2 : ℝ) ^ (512 : ℤ) :=
  sqrt_fin h0 h1

/-- The double `potentialTerms(Tag<0>)` returns lies in `[0, 1]`. -/
theorem binary64_potentialTerms_mem (xi Lambda phi : ℝ) (h0 : 0 ≤ xi)
    (h1 : xi < (2 : ℝ) ^ (1024 : ℤ)) :
    ∃ v, binary64.potentialTerms_Tag0 (binary64.construct (Double.fin xi) (Double.fin Lambda))
        ![Double.fin phi] = Double.fin v ∧ 0 ≤ v ∧ v ≤ 1 := by
  obtain ⟨hs, -, -⟩ := binary64_sqrtxi Lambda h0 h1
  unfold binary64.potentialTerms_Tag0
  rw [hs, Matrix.cons_val_zero]
  have hm : Double.mul (Double.fin (roundNearest (Real.sqrt xi))) (Double.fin phi)
      ≠ Double.nan := ofReal_ne_nan _
  obtain ⟨t, ht, htb⟩ := tanh_bounded hm
  rw [ht]
  obtain ⟨v, hv, hvb, hv0⟩ := pow_bounded htb 4
  exact ⟨v, hv, hv0 (by positivity), (abs_le.mp hvb).2⟩

/-- The double `potentialTerms(Tag<0>)` returns at `phi = 0` is zero. -/
theorem binary64_potentialTerms_zero (xi Lambda : ℝ) (h0 : 0 ≤ xi)
    (h1 : xi < (2 : ℝ) ^ (1024 : ℤ)) :
    binary64.potentialTerms_Tag0 (binary64.construct (Double.fin xi) (Double.fin Lambda))
        ![Double.fin 0] = Double.fin 0 := by
  obtain ⟨hs, -, -⟩ := binary64_sqrtxi Lambda h0 h1
  unfold binary64.potentialTerms_Tag0
  rw [hs, Matrix.cons_val_zero]
  simp only [Double.mul, Double.tanh, Double.pow, mul_zero, ofReal_zero, Real.tanh_zero]
  norm_num [ofReal_zero]

/-- Once the computed hyperbolic argument `sqrtxi * fldS(0_c)` has magnitude at least 20, the
double `potentialTerms(Tag<0>)` returns is exactly one. -/
theorem binary64_potentialTerms_of_absGe (m : binary64.Model) (fldS : Fin 1 → Double)
    (h : (Double.mul m.sqrtxi (fldS 0)).absGe 20) :
    binary64.potentialTerms_Tag0 m fldS = Double.fin 1 := by
  unfold binary64.potentialTerms_Tag0
  rcases tanh_of_absGe h with ht | ht
  · rw [ht]
    simp only [Double.pow, one_pow, ofReal_one]
  · rw [ht]
    have : ((-1 : ℝ)) ^ 4 = 1 := by norm_num
    simp only [Double.pow, this, ofReal_one]

/-- For a finite `xi ≥ 1` the computed hyperbolic argument has magnitude at least the integer
`n` as soon as the field has. -/
theorem binary64_tanarg_absGe (xi Lambda phi : ℝ) (n : ℤ) (hn0 : 0 ≤ n) (hn : |n| < 2 ^ 53)
    (h0 : 1 ≤ xi) (h1 : xi < (2 : ℝ) ^ (1024 : ℤ)) (hphi : (n : ℝ) ≤ |phi|) :
    (Double.mul (binary64.construct (Double.fin xi) (Double.fin Lambda)).sqrtxi
      (Double.fin phi)).absGe n := by
  obtain ⟨hs, -, -⟩ := binary64_sqrtxi Lambda (by linarith) h1
  rw [hs]
  have hs1 : (1 : ℝ) ≤ roundNearest (Real.sqrt xi) := by
    have h := le_roundNearest (x := Real.sqrt xi) (k := 0) (by norm_num)
      (by simpa using Real.one_le_sqrt.mpr h0)
    simpa using h
  have hn0R : (0 : ℝ) ≤ (n : ℝ) := by exact_mod_cast hn0
  have hprod : (n : ℝ) ≤ |roundNearest (Real.sqrt xi) * phi| := by
    rw [abs_mul, abs_of_nonneg (by linarith)]
    nlinarith [abs_nonneg phi]
  exact ofReal_absGe n hn0 hn hprod

/-- One is a finite double. -/
theorem one_lt_two_zpow : (1 : ℝ) < (2 : ℝ) ^ (1024 : ℤ) := by
  have : (2 : ℝ) ^ (0 : ℤ) < (2 : ℝ) ^ (1024 : ℤ) :=
    zpow_lt_zpow_right₀ (by norm_num) (by norm_num)
  simpa using this

/-- C8 (counterexample): at `xi = 1`, `phi = 20` the double `potentialTerms(Tag<0>)` returns
is exactly `1`, which is not below `1`: `tanh(20)` is closer to `1` than to any other double. -/
theorem potentialTerms_returns_one :
    binary64.potentialTerms_Tag0 (binary64.construct (Double.fin 1) (Double.fin 1))
        ![Double.fin 20] = Double.fin 1
      ∧ ¬ ((1 : ℝ) < 1) := by
  refine ⟨?_, lt_irrefl 1⟩
  apply binary64_potentialTerms_of_absGe
  rw [Matrix.cons_val_zero]
  have h := binary64_tanarg_absGe 1 1 20 20 (by norm_num) (by norm_num) le_rfl one_lt_two_zpow
    (by norm_num)
  simpa using h

end higgs_palatini

/-! ## Overflow of the hyperbolic powers -/

namespace IEEE754

/-- From magnitude `n` on, with `2 ^ (K + 1) ≤ 2.718 ^ n`, the hyperbolic cosine returns `+inf`
or a finite double of at least `2 ^ K`. -/
theorem cosh_of_absGe {d : Double} (n : ℕ) (K : ℤ) (hK : -1074 ≤ K) (hd : d.absGe n)
    (hpow : (2 : ℝ) ^ (K + 1) ≤ (2.718 : ℝ) ^ n) :
    Double.cosh d = Double.pinf ∨ ∃ c, Double.cosh d = Double.fin c ∧ (2 : ℝ) ^ K ≤ c := by
  cases d with
  | fin a =>
    have ha : (n : ℝ) ≤ |a| := hd
    have h1 : (2.718 : ℝ) ^ n ≤ Real.exp |a| :=
      Hyperbolic.pow_le_exp (by norm_num) Hyperbolic.e_lower n ha
    have h2 := Hyperbolic.half_exp_le_cosh a
    have h3 : (2 : ℝ) ^ (K + 1) = (2 : ℝ) ^ K * 2 := zpow_add_one₀ (by norm_num) K
    have hle : (2 : ℝ) ^ K ≤ Real.cosh a := by linarith
    rcases ofReal_of_le hK hle with h | h
    · exact Or.inl h
    · exact Or.inr ⟨_, h.1, h.2⟩
  | pinf => exact Or.inl rfl
  | ninf => exact Or.inl rfl
  | nan => exact absurd hd (by simp [Double.absGe])

/-- A power whose exact value reaches `2 ^ 1024` overflows to `+inf`. -/
theorem pow_eq_pinf {c : ℝ} {K : ℤ} (n : ℕ) (hc : (2 : ℝ) ^ K ≤ c) (hn : 1024 ≤ K * n) :
    Double.pow (Double.fin c) n = Double.pinf := by
  have h0 : (0 : ℝ) ≤ (2 : ℝ) ^ K := (zpow_pos (by norm_num) _).le
  have h1 : ((2 : ℝ) ^ K) ^ n ≤ c ^ n := pow_le_pow_left₀ h0 hc n
  have h2 : ((2 : ℝ) ^ K) ^ n = (2 : ℝ) ^ (K * n) := by
    rw [← zpow_natCast, ← zpow_mul]
  have h3 : (2 : ℝ) ^ (1024 : ℤ) ≤ (2 : ℝ) ^ (K * n) := zpow_le_zpow_right₀ (by norm_num) hn
  unfold Double.pow
  exact ofReal_eq_pinf (by linarith)

/-- A power of a finite double of at least `2 ^ K` is `+inf` or a finite double of at least
`2 ^ (K * n)`. -/
theorem pow_of_le {c : ℝ} {K : ℤ} (n : ℕ) (hc : (2 : ℝ) ^ K ≤ c) (hn : -1074 ≤ K * n) :
    Double.pow (Double.fin c) n = Double.pinf
      ∨ ∃ D, Double.pow (Double.fin c) n = Double.fin D ∧ (2 : ℝ) ^ (K * n) ≤ D := by
  have h0 : (0 : ℝ) ≤ (2 : ℝ) ^ K := (zpow_pos (by norm_num) _).le
  have h1 : ((2 : ℝ) ^ K) ^ n ≤ c ^ n := pow_le_pow_left₀ h0 hc n
  have h2 : ((2 : ℝ) ^ K) ^ n = (2 : ℝ) ^ (K * n) := by
    rw [← zpow_natCast, ← zpow_mul]
  rw [h2] at h1
  rcases ofReal_of_le hn h1 with h | h
  · exact Or.inl h
  · exact Or.inr ⟨_, h.1, h.2⟩

/-- From magnitude 400 on, the square of the hyperbolic cosine overflows. -/
theorem pow_two_cosh_of_absGe {d : Double} (hd : d.absGe 400) :
    Double.pow (Double.cosh d) 2 = Double.pinf := by
  have hd2 : d.absGe ((400 : ℕ) : ℝ) := by simpa using hd
  rcases cosh_of_absGe 400 512 (by norm_num) hd2 (by norm_num) with h | ⟨c, h, hc⟩
  · rw [h]
    rfl
  · rw [h]
    exact pow_eq_pinf 2 hc (by norm_num)

/-- The hyperbolic cosine of the double 800 overflows. -/
theorem cosh_800 : Double.cosh (Double.fin 800) = Double.pinf := by
  have h1 : (2.718 : ℝ) ^ 800 ≤ Real.exp |(800 : ℝ)| :=
    Hyperbolic.pow_le_exp (by norm_num) Hyperbolic.e_lower 800 (by norm_num)
  have h2 := Hyperbolic.half_exp_le_cosh 800
  have h3 : (2 : ℝ) ^ (1024 : ℤ) * 2 ≤ (2.718 : ℝ) ^ 800 := by norm_num
  unfold Double.cosh
  exact ofReal_eq_pinf (by linarith)

/-- The square of the hyperbolic sine of the double 400 overflows. -/
theorem pow_two_sinh_400 : Double.pow (Double.sinh (Double.fin 400)) 2 = Double.pinf := by
  have h1 : (2.718 : ℝ) ^ 400 ≤ Real.exp (400 : ℝ) :=
    Hyperbolic.pow_le_exp (by norm_num) Hyperbolic.e_lower 400 (by norm_num)
  have h3 : (2 : ℝ) ^ (512 : ℤ) * 2 + 1 ≤ (2.718 : ℝ) ^ 400 := by norm_num
  have h4 : Real.exp (-(400 : ℝ)) ≤ 1 := by
    rw [Real.exp_le_one_iff]
    norm_num
  have hle : (2 : ℝ) ^ (512 : ℤ) ≤ Real.sinh 400 := by
    rw [Real.sinh_eq]
    linarith
  have hs : Double.sinh (Double.fin 400) = Double.ofReal (Real.sinh 400) := rfl
  rw [hs]
  rcases ofReal_of_le (by norm_num) hle with h | h
  · rw [h]
    rfl
  · rw [h.1]
    exact pow_eq_pinf 2 h.2 (by norm_num)

end IEEE754

/-! ## Single-field model in double precision: effective mass and gradient at large fields -/

namespace higgs_palatini

open IEEE754

end higgs_palatini

namespace higgs_palatini

open IEEE754

/-- The numerator `4 * sqrtxi * pow(tanh(tanarg), 3)` of `potDeriv(Tag<0>)` is a finite double
bounded by four times a power of two above `sqrt(xi)`. -/
theorem binary64_potDeriv_num (xi Lambda phi : ℝ) (k : ℤ) (hxi : 0 ≤ xi) (hk : -900 ≤ k)
    (hk2 : k ≤ 512) (hs : Real.sqrt xi ≤ (2 : ℝ) ^ k) :
    ∃ N, Double.mul
        (Double.mul (Double.fin 4) (binary64.construct (Double.fin xi) (Double.fin Lambda)).sqrtxi)
        (Double.pow (Double.tanh (Double.mul
          (binary64.construct (Double.fin xi) (Double.fin Lambda)).sqrtxi (Double.fin phi))) 3)
        = Double.fin N ∧ |N| ≤ (2 : ℝ) ^ (k + 2) := by
  have habs : |Real.sqrt xi| ≤ (2 : ℝ) ^ k := by
    rw [abs_of_nonneg (Real.sqrt_nonneg xi)]
    exact hs
  obtain ⟨hsq, hsb⟩ := ofReal_of_abs_le (by omega) (by omega) habs
  have hsqrt : (binary64.construct (Double.fin xi) (Double.fin Lambda)).sqrtxi
      = Double.fin (roundNearest (Real.sqrt xi)) := by
    show Double.sqrt (Double.fin xi) = _
    unfold Double.sqrt
    simp only
    rw [if_neg (not_lt.mpr hxi)]
    exact hsq
  rw [hsqrt]
  have h4 : |4 * roundNearest (Real.sqrt xi)| ≤ (2 : ℝ) ^ (k + 2) := by
    rw [abs_mul, zpow_add₀ (by norm_num : (2 : ℝ) ≠ 0)]
    norm_num
    linarith
  obtain ⟨hn4, hn4b⟩ := ofReal_of_abs_le (by omega) (by omega) h4
  have hm : Double.mul (Double.fin (roundNearest (Real.sqrt xi))) (Double.fin phi)
      ≠ Double.nan := ofReal_ne_nan _
  obtain ⟨t, ht, htb⟩ := tanh_bounded hm
  obtain ⟨t3, ht3, ht3b, -⟩ := pow_bounded htb 3
  rw [ht, ht3]
  have hN : |roundNearest (4 * roundNearest (Real.sqrt xi)) * t3| ≤ (2 : ℝ) ^ (k + 2) := by
    rw [abs_mul]
    calc |roundNearest (4 * roundNearest (Real.sqrt xi))| * |t3|
        ≤ (2 : ℝ) ^ (k + 2) * 1 :=
          mul_le_mul hn4b ht3b (abs_nonneg _) (zpow_pos (by norm_num) _).le
      _ = (2 : ℝ) ^ (k + 2) := mul_one _
  obtain ⟨hN1, hN2⟩ := ofReal_of_abs_le (by omega) (by omega) hN
  refine ⟨_, ?_, hN2⟩
  show Double.mul (Double.ofReal (4 * roundNearest (Real.sqrt xi))) (Double.fin t3) = _
  rw [hn4]
  exact hN1

/-- In the single-field model, once the computed hyperbolic argument has magnitude at least
50 the double `potDeriv(Tag<0>)` returns is finite and at most `2 ^ (k - 140)` in magnitude,
where `2 ^ k` bounds `sqrt(xi)`. -/
theorem binary64_potDeriv_finite (xi Lambda phi : ℝ) (k : ℤ) (hxi : 0 ≤ xi) (hk : -900 ≤ k)
    (hk2 : k ≤ 512) (hs : Real.sqrt xi ≤ (2 : ℝ) ^ k)
    (h : (Double.mul (binary64.construct (Double.fin xi) (Double.fin Lambda)).sqrtxi
      (Double.fin phi)).absGe 50) :
    ∃ v, binary64.potDeriv_Tag0 (binary64.construct (Double.fin xi) (Double.fin Lambda))
        ![Double.fin phi] = Double.fin v ∧ |v| ≤ (2 : ℝ) ^ (k - 140) := by
  obtain ⟨N, hN, hNb⟩ := binary64_potDeriv_num xi Lambda phi k hxi hk hk2 hs
  have hpos : (0 : ℝ) ≤ (2 : ℝ) ^ (k - 140) := (zpow_pos (by norm_num) _).le
  have h50 : (Double.mul (binary64.construct (Double.fin xi) (Double.fin Lambda)).sqrtxi
      (Double.fin phi)).absGe ((50 : ℕ) : ℝ) := by simpa using h
  unfold binary64.potDeriv_Tag0
  simp only [Matrix.cons_val_zero, hN]
  have hzero : ∃ v, Double.div (Double.fin N) Double.pinf = Double.fin v
      ∧ |v| ≤ (2 : ℝ) ^ (k - 140) := ⟨0, rfl, by simpa using hpos⟩
  rcases cosh_of_absGe 50 71 (by norm_num) h50 (by norm_num) with hc | ⟨c, hc, hcb⟩
  · rw [hc]
    exact hzero
  · rw [hc]
    rcases pow_of_le 2 hcb (by norm_num) with hp | ⟨D, hp, hDb⟩
    · rw [hp]
      exact hzero
    · rw [hp]
      have hD : (2 : ℝ) ^ (142 : ℤ) ≤ D := by simpa using hDb
      have h142 : (0 : ℝ) < (2 : ℝ) ^ (142 : ℤ) := zpow_pos (by norm_num) _
      have hDpos : 0 < D := lt_of_lt_of_le h142 hD
      have hq : |N / D| ≤ (2 : ℝ) ^ (k - 140) := by
        rw [abs_div, abs_of_pos hDpos, div_le_iff₀ hDpos]
        have hsplit : (2 : ℝ) ^ (k + 2) = (2 : ℝ) ^ (k - 140) * (2 : ℝ) ^ (142 : ℤ) := by
          rw [← zpow_add₀ (by norm_num : (2 : ℝ) ≠ 0)]
          congr 1
          ring
        calc |N| ≤ (2 : ℝ) ^ (k + 2) := hNb
          _ = (2 : ℝ) ^ (k - 140) * (2 : ℝ) ^ (142 : ℤ) := hsplit
          _ ≤ (2 : ℝ) ^ (k - 140) * D := mul_le_mul_of_nonneg_left hD hpos
      obtain ⟨hv, hvb⟩ := ofReal_of_abs_le (by omega) (by omega) hq
      refine ⟨_, ?_, hvb⟩
      show Double.div (Double.fin N) (Double.fin D) = _
      unfold Double.div
      simp only
      rw [if_neg hDpos.ne']
      exact hv

/-- In the single-field model, once the computed hyperbolic argument has magnitude at least
400 the denominator `pow(cosh(tanarg), 2)` has overflowed to `+inf` and the double
`potDeriv(Tag<0>)` returns is zero. -/
theorem binary64_potDeriv_overflow (xi Lambda phi : ℝ) (k : ℤ) (hxi : 0 ≤ xi) (hk : -900 ≤ k)
    (hk2 : k ≤ 512) (hs : Real.sqrt xi ≤ (2 : ℝ) ^ k)
    (h : (Double.mul (binary64.construct (Double.fin xi) (Double.fin Lambda)).sqrtxi
      (Double.fin phi)).absGe 400) :
    Double.pow (Double.cosh (Double.mul
        (binary64.construct (Double.fin xi) (Double.fin Lambda)).sqrtxi (Double.fin phi))) 2
        = Double.pinf
      ∧ binary64.potDeriv_Tag0 (binary64.construct (Double.fin xi) (Double.fin Lambda))
        ![Double.fin phi] = Double.fin 0 := by
  obtain ⟨N, hN, -⟩ := binary64_potDeriv_num xi Lambda phi k hxi hk hk2 hs
  have hden := pow_two_cosh_of_absGe h
  refine ⟨hden, ?_⟩
  unfold binary64.potDeriv_Tag0
  simp only [Matrix.cons_val_zero, hN, hden]
  rfl

end higgs_palatini

/-! ## Gauge model in double precision: the gradient at large fields -/

namespace higgs_palatini_gauge_scalars

open IEEE754

/-- C15 (counterexample): at `xi = Lambda = g = gz = 1` and fields `(400, 1, 1, 1)` the
hyperbolic argument `sqrt(xi)*phi0` is `400 ≥ 50`, and the double `potDeriv(Tag<0>)` returns
in the gauge model is NaN: `cosh(800)` and `sinh(400)^2` overflow, so the code forms
`-inf + inf`. -/
theorem gauge_potDeriv_returns_nan :
    Double.mul (Double.sqrt (Double.fin 1)) (Double.fin 400) = Double.fin 400
      ∧ (50 : ℝ) ≤ |400|
      ∧ binary64.potDeriv_Tag0
        (binary64.construct (Double.fin 1) (Double.fin 1) (Double.fin 1) (Double.fin 1))
        ![Double.fin 400, Double.fin 1, Double.fin 1, Double.fin 1] = Double.nan := by
  have h1 : Double.ofReal 1 = Double.fin 1 := ofReal_one
  have h2 : Double.ofReal 2 = Double.fin 2 := by
    simpa using ofReal_intCast 2 (by norm_num)
  have h3 : Double.ofReal 3 = Double.fin 3 := by
    simpa using ofReal_intCast 3 (by norm_num)
  have h8 : Double.ofReal 8 = Double.fin 8 := by
    simpa using ofReal_intCast 8 (by norm_num)
  have h400 : Double.ofReal 400 = Double.fin 400 := by
    simpa using ofReal_intCast 400 (by norm_num)
  have h800 : Double.ofReal 800 = Double.fin 800 := by
    simpa using ofReal_intCast 800 (by norm_num)
  have hsqrt : Double.sqrt (Double.fin 1) = Double.fin 1 := by
    simp only [Double.sqrt]
    norm_num [h1]
  have hsharg : Double.mul (Double.sqrt (Double.fin 1)) (Double.fin 400) = Double.fin 400 := by
    rw [hsqrt]
    simp only [Double.mul]
    norm_num [h400]
  have h2f : Double.mul (Double.fin 2) (Double.fin 400) = Double.fin 800 := by
    simp only [Double.mul]
    norm_num [h800]
  have hinp11 : Double.mul (Double.fin 1)
      (Double.sub (Double.fin 3) (Double.cosh (Double.mul (Double.fin 2) (Double.fin 400))))
      = Double.ninf := by
    rw [h2f, cosh_800]
    simp [Double.sub, Double.neg, Double.add, Double.mul, Double.infTimes]
  have hp1 : Double.pow (Double.fin 1) 2 = Double.fin 1 := by
    simp only [Double.pow, one_pow, h1]
  have hinp12 : Double.add
      (Double.mul (Double.mul (Double.fin 1) (Double.fin 1))
        (Double.add (Double.pow (Double.fin 1) 2) (Double.pow (Double.fin 1) 2)))
      (Double.mul (Double.mul (Double.fin 1) (Double.fin 1)) (Double.pow (Double.fin 1) 2))
      = Double.fin 3 := by
    rw [hp1]
    simp only [Double.mul, Double.add]
    norm_num [h1, h2, h3]
  have hinp2 : Double.mul (Double.mul (Double.fin 8) (Double.fin 1))
      (Double.pow (Double.sinh (Double.fin 400)) 2) = Double.pinf := by
    rw [pow_two_sinh_400]
    simp only [Double.mul]
    norm_num [h8, Double.infTimes]
  refine ⟨hsharg, by norm_num, ?_⟩
  unfold binary64.potDeriv_Tag0
  simp only [binary64.construct, Matrix.cons_val_zero, Matrix.cons_val_one, Matrix.head_cons,
    Matrix.cons_val_two, Matrix.tail_cons, Matrix.cons_val_three, hsharg, hinp11, hinp12, hinp2]
  have hsum : Double.add (Double.mul Double.ninf (Double.fin 3)) Double.pinf = Double.nan := by
    simp [Double.mul, Double.infTimes, Double.add]
  rw [hsum]
  cases Double.div
      (Double.mul (Double.div (Double.mul (Double.fin 0.5) (Double.sqrt (Double.fin 1)))
        (Double.fin 1)) (Double.tanh (Double.fin 400)))
      (Double.pow (Double.cosh (Double.fin 400)) 4) <;> rfl

end higgs_palatini_gauge_scalars

/-! ## Values returned in double precision: bounds, saturation, gradient, effective mass -/

namespace higgs_palatini

open IEEE754

/-- C8 (amended): for every finite `xi > 0` and every finite `phi`, the exact value of
`tanh(sqrt(xi)*phi)^4` lies in `[0, 1)` and is `0` at `phi = 0`; the double that
`potentialTerms(Tag<0>)` returns lies in `[0, 1]` and is `0` at `phi = 0`. -/
theorem potentialTerms_bounded_in_double (xi Lambda phi : ℝ) (hxi : 0 < xi)
    (hfin : xi < (2 : ℝ) ^ (1024 : ℤ)) :
    (0 ≤ potentialTerms_Tag0 (construct xi Lambda) ![phi]
      ∧ potentialTerms_Tag0 (construct xi Lambda) ![phi] < 1
      ∧ potentialTerms_Tag0 (construct xi Lambda) ![0] = 0)
    ∧ (∃ v, binary64.potentialTerms_Tag0
          (binary64.construct (Double.fin xi) (Double.fin Lambda)) ![Double.fin phi]
          = Double.fin v ∧ 0 ≤ v ∧ v ≤ 1)
    ∧ binary64.potentialTerms_Tag0
        (binary64.construct (Double.fin xi) (Double.fin Lambda)) ![Double.fin 0]
        = Double.fin 0 :=
  ⟨potentialTerms_bounded xi Lambda phi hxi,
    binary64_potentialTerms_mem xi Lambda phi hxi.le hfin,
    binary64_potentialTerms_zero xi Lambda hxi.le hfin⟩

/-- Witness for C8 (amended) at `xi = 1`, `Lambda = 1`, `phi = 20`. -/
theorem potentialTerms_bounded_in_double_witness :
    ((0 : ℝ) < 1 ∧ (1 : ℝ) < (2 : ℝ) ^ (1024 : ℤ))
      ∧ ∃ v, binary64.potentialTerms_Tag0
          (binary64.construct (Double.fin 1) (Double.fin 1)) ![Double.fin 20]
          = Double.fin v ∧ 0 ≤ v ∧ v ≤ 1 :=
  ⟨⟨one_pos, one_lt_two_zpow⟩,
    (potentialTerms_bounded_in_double 1 1 20 one_pos one_lt_two_zpow).2.1⟩

/-- C9 (counterexample): at `xi = 1`, `phi = -20` the double `potentialTerms(Tag<0>)` returns
is exactly `1`: the supremum is attained at a finite field value. -/
theorem potentialTerms_attains_supremum :
    binary64.potentialTerms_Tag0 (binary64.construct (Double.fin 1) (Double.fin 1))
        ![Double.fin (-20)] = Double.fin 1 := by
  apply binary64_potentialTerms_of_absGe
  rw [Matrix.cons_val_zero]
  have h := binary64_tanarg_absGe 1 1 (-20) 20 (by norm_num) (by norm_num) le_rfl
    one_lt_two_zpow (by norm_num)
  simpa using h

/-- C9 (amended): for every finite `xi > 0`, the exact value of `tanh(sqrt(xi)*phi)^4` tends to
`1` as `phi → +∞` and as `phi → -∞` and is below `1` at every `phi`; the double that
`potentialTerms(Tag<0>)` returns is exactly `1` once the computed hyperbolic argument has
magnitude at least 20, and for `xi ≥ 1` that is so whenever `|phi| ≥ 20`. -/
theorem potentialTerms_saturates_in_double (xi Lambda : ℝ) (hxi : 0 < xi)
    (hfin : xi < (2 : ℝ) ^ (1024 : ℤ)) :
    (Filter.Tendsto (fun phi => potentialTerms_Tag0 (construct xi Lambda) ![phi])
        Filter.atTop (nhds 1)
      ∧ Filter.Tendsto (fun phi => potentialTerms_Tag0 (construct xi Lambda) ![phi])
        Filter.atBot (nhds 1)
      ∧ ∀ phi, potentialTerms_Tag0 (construct xi Lambda) ![phi] < 1)
    ∧ (∀ phi : ℝ,
        (Double.mul (binary64.construct (Double.fin xi) (Double.fin Lambda)).sqrtxi
          (Double.fin phi)).absGe 20 →
        binary64.potentialTerms_Tag0
          (binary64.construct (Double.fin xi) (Double.fin Lambda)) ![Double.fin phi]
          = Double.fin 1)
    ∧ (1 ≤ xi → ∀ phi : ℝ, 20 ≤ |phi| →
        binary64.potentialTerms_Tag0
          (binary64.construct (Double.fin xi) (Double.fin Lambda)) ![Double.fin phi]
          = Double.fin 1) := by
  refine ⟨potentialTerms_saturates xi Lambda hxi, ?_, ?_⟩
  · intro phi h
    exact binary64_potentialTerms_of_absGe _ _ (by rw [Matrix.cons_val_zero]; exact h)
  · intro h1 phi hphi
    apply binary64_potentialTerms_of_absGe
    rw [Matrix.cons_val_zero]
    have h := binary64_tanarg_absGe xi Lambda phi 20 (by norm_num) (by norm_num) h1 hfin
      (by simpa using hphi)
    simpa using h

/-- Witness for C9 (amended) at `xi = 1`, `Lambda = 1`, `phi = 20`. -/
theorem potentialTerms_saturates_in_double_witness :
    ((0 : ℝ) < 1 ∧ (1 : ℝ) < (2 : ℝ) ^ (1024 : ℤ) ∧ (1 : ℝ) ≤ 1 ∧ (20 : ℝ) ≤ |20|)
      ∧ binary64.potentialTerms_Tag0
          (binary64.construct (Double.fin 1) (Double.fin 1)) ![Double.fin 20]
          = Double.fin 1 :=
  ⟨⟨one_pos, one_lt_two_zpow, le_rfl, by norm_num⟩,
    (potentialTerms_saturates_in_double 1 1 one_pos one_lt_two_zpow).2.2 le_rfl 20
      (by norm_num)⟩

/-- C15 (amended): in the single-field model, for every `xi > 0` whose square root is at most
`2 ^ k` (`-900 ≤ k ≤ 512`) and every finite `phi`, once the computed hyperbolic argument
`sqrtxi * phi` has magnitude at least 50 the double `potDeriv(Tag<0>)` returns is finite and
within `2 ^ (k - 140)` of the saturation limit `0`; the intermediate `pow(cosh(tanarg), 2)` is
not kept from overflowing: from magnitude 400 on it is `+inf`, and the value returned is `0`. -/
theorem potDeriv_finite_in_double (xi Lambda phi : ℝ) (k : ℤ) (hxi : 0 < xi) (hk : -900 ≤ k)
    (hk2 : k ≤ 512) (hs : Real.sqrt xi ≤ (2 : ℝ) ^ k) :
    ((Double.mul (binary64.construct (Double.fin xi) (Double.fin Lambda)).sqrtxi
        (Double.fin phi)).absGe 50 →
      ∃ v, binary64.potDeriv_Tag0 (binary64.construct (Double.fin xi) (Double.fin Lambda))
        ![Double.fin phi] = Double.fin v ∧ |v| ≤ (2 : ℝ) ^ (k - 140))
    ∧ ((Double.mul (binary64.construct (Double.fin xi) (Double.fin Lambda)).sqrtxi
        (Double.fin phi)).absGe 400 →
      Double.pow (Double.cosh (Double.mul
          (binary64.construct (Double.fin xi) (Double.fin Lambda)).sqrtxi (Double.fin phi))) 2
          = Double.pinf
        ∧ binary64.potDeriv_Tag0 (binary64.construct (Double.fin xi) (Double.fin Lambda))
          ![Double.fin phi] = Double.fin 0) :=
  ⟨binary64_potDeriv_finite xi Lambda phi k hxi.le hk hk2 hs,
    binary64_potDeriv_overflow xi Lambda phi k hxi.le hk hk2 hs⟩

/-- Witness for C15 (amended) at `xi = 1`, `Lambda = 1`, `phi = 50`, `k = 0`. -/
theorem potDeriv_finite_in_double_witness :
    ((0 : ℝ) < 1 ∧ (-900 : ℤ) ≤ 0 ∧ (0 : ℤ) ≤ 512 ∧ Real.sqrt 1 ≤ (2 : ℝ) ^ (0 : ℤ))
      ∧ ∃ v, binary64.potDeriv_Tag0 (binary64.construct (Double.fin 1) (Double.fin 1))
        ![Double.fin 50] = Double.fin v ∧ |v| ≤ (2 : ℝ) ^ ((0 : ℤ) - 140) :=
  ⟨⟨one_pos, by norm_num, by norm_num, by simp⟩,
    (potDeriv_finite_in_double 1 1 50 0 one_pos (by norm_num) (by norm_num) (by simp)).1
      (by
        have h := binary64_tanarg_absGe 1 1 50 50 (by norm_num) (by norm_num) le_rfl
          one_lt_two_zpow (by norm_num)
        simpa using h)⟩

end higgs_palatini

/-! ## Construction from fetched values outside the domain -/

namespace IEEE754

end IEEE754

